import Mathlib

/-!
# koukan::ThreadPool

A shallow embedding of `src/ThreadPool.hpp`; the embedding of `src/Vector.hpp` follows it.

* The two deques `_threads` and `_tasks` are lists, the front of a deque being the head
  of the list.
* `std::function<void()>` tasks are opaque: a user task is identified by a number and its
  body does not touch the pool; the only task the pool itself manufactures is the lambda
  `[] { gl_continue = false; }` of `removeThread`, embedded as `Task.retire`.
* A worker thread is a control point inside `handleTask` together with its own copy of the
  `thread_local` flag `gl_continue`.
* Threads interleave at the granularity of the critical sections of the source: everything
  a worker does while holding `_mutex` is one step.
* `_working_thread_counter` has no initialiser in the source: `uninitialised` and `ctorFrom`
  carry the value that its storage holds at construction; `empty` and `ctor` are the
  instance in which that value is 0.
* `size_t` values are natural numbers; no arithmetic on them can wrap in the code embedded
  here (they are only compared, decremented while positive, or used as loop bounds).
* `notify_one` / `notify_all` do not change any data member, so they do not appear in the
  state: a thread blocked in `condition_variable::wait(lock, pred)` may proceed exactly when
  `pred` holds.
-/

namespace koukan

/-- Element of the deque `_tasks`: a task supplied by a caller, or the retire lambda
`[] { gl_continue = false; }` pushed by `removeThread`. -/
inductive Task where
  | user (id : Nat)
  | retire
  deriving DecidableEq, Repr

/-- Control point of a worker thread inside `ThreadPool::handleTask`. -/
inductive Pc where
  /-- About to evaluate the loop condition `while (gl_continue)`. -/
  | loopTest
  /-- Inside the loop, in `_condition_variable.wait(lock, !_tasks.empty())`. -/
  | waitTask
  /-- Task dequeued, `_mutex` released, `task()` not yet returned. -/
  | runTask (t : Task)
  /-- Call `task()` returned, `--_working_thread_counter` not yet done. -/
  | afterTask
  /-- Function `handleTask` returned: the thread is finished (and joinable). -/
  | exited
  deriving DecidableEq, Repr

/-- One `std::thread` of `_threads`, running `handleTask`, with its `thread_local`
flag `gl_continue`. -/
structure Worker where
  pc : Pc
  gl_continue : Bool
  deriving DecidableEq, Repr

/-- Data members of `koukan::ThreadPool` (the mutexes and condition variables carry no
data). -/
structure ThreadPool where
  threads : List Worker
  tasks : List Task
  working_thread_counter : Int
  deriving DecidableEq, Repr

/-- Effect of calling `task()` on the thread that runs it: the retire lambda clears that
thread's `gl_continue`; a user task leaves the pool and the flag alone. -/
def Task.call (t : Task) (w : Worker) : Worker :=
  match t with
  | Task.user _ => w
  | Task.retire => { w with gl_continue := false }

namespace ThreadPool

/-- Thread freshly started by `_threads.emplace_back([this] { this->handleTask(); })`:
at the top of `handleTask`, with `gl_continue` at its initial value `true`. -/
def spawn : Worker :=
  { pc := Pc.loopTest, gl_continue := true }

/-- Members before the constructor body runs, as the source leaves them: both deques
empty, and `_working_thread_counter`, for which the class has no initialiser and to which
the constructor never stores, holding whatever value `counter` its storage holds. -/
def uninitialised (counter : Int) : ThreadPool :=
  { threads := [], tasks := [], working_thread_counter := counter }

/-- Members before the constructor body runs when the storage of the counter happens to
hold 0 (as it does in zero-initialised static storage): the instance `uninitialised 0`. -/
def empty : ThreadPool :=
  { threads := [], tasks := [], working_thread_counter := 0 }

/-- Method `ThreadPool::pushTask`: `_tasks.emplace_back(task)`. -/
def pushTask (task : Task) (p : ThreadPool) : ThreadPool :=
  { p with tasks := p.tasks ++ [task] }

/-- Method `ThreadPool::pushPriorityTask`: `_tasks.emplace_front(task)`. -/
def pushPriorityTask (task : Task) (p : ThreadPool) : ThreadPool :=
  { p with tasks := task :: p.tasks }

/-- Method `ThreadPool::size`: `_tasks.size()`. -/
def size (p : ThreadPool) : Nat :=
  p.tasks.length

/-- Method `ThreadPool::addThread`: `for (; nb > 0; nb--) _threads.emplace_back(...)`. -/
def addThread : Nat → ThreadPool → ThreadPool
  | 0, p => p
  | nb + 1, p => addThread nb { p with threads := p.threads ++ [spawn] }

/-- Loop of `removeThread`: `nb` times `pushPriorityTask([] { gl_continue = false; })`. -/
def removeThreadLoop : Nat → ThreadPool → ThreadPool
  | 0, p => p
  | nb + 1, p => removeThreadLoop nb (pushPriorityTask Task.retire p)

/-- Method `ThreadPool::removeThread`:
`nb = (nb < _threads.size()) ? nb : _threads.size();` followed by the loop. -/
def removeThread (nb : Nat) (p : ThreadPool) : ThreadPool :=
  removeThreadLoop (if nb < p.threads.length then nb else p.threads.length) p

/-- Method `ThreadPool::getNbThread`: `_threads.size()`. -/
def getNbThread (p : ThreadPool) : Nat :=
  p.threads.length

/-- Constructor `ThreadPool::ThreadPool(size_t nbThread)` on the members `empty`;
`hardware_concurrency` is the value returned by `std::thread::hardware_concurrency()`. -/
def ctor (hardware_concurrency : Nat) (nbThread : Nat) : ThreadPool :=
  let nbThread :=
    if nbThread = 0 then
      (if hardware_concurrency > 1 then hardware_concurrency - 1 else hardware_concurrency)
    else nbThread
  addThread nbThread empty

/-- Constructor `ThreadPool::ThreadPool(size_t nbThread)` on members whose counter holds
`counter`: the body only computes `nbThread` and calls `addThread`, so the counter keeps
that value. -/
def ctorFrom (counter : Int) (hardware_concurrency : Nat) (nbThread : Nat) : ThreadPool :=
  let nbThread :=
    if nbThread = 0 then
      (if hardware_concurrency > 1 then hardware_concurrency - 1 else hardware_concurrency)
    else nbThread
  addThread nbThread (uninitialised counter)

/-- Dequeue of `handleTask`, done under `_mutex` once `_tasks` is not empty:
`++_working_thread_counter; task = _tasks.front(); _tasks.pop_front();`.
`none` when the queue is empty (the worker stays blocked). -/
def dequeue (p : ThreadPool) : Option (Task × ThreadPool) :=
  match p.tasks with
  | [] => none
  | t :: rest =>
    some (t, { p with tasks := rest, working_thread_counter := p.working_thread_counter + 1 })

/-- Successive dequeues, with the tasks in the order they were taken; `none` if the queue
runs empty before `n` tasks were taken. -/
def dequeueN : Nat → ThreadPool → Option (List Task × ThreadPool)
  | 0, p => some ([], p)
  | n + 1, p =>
    match dequeue p with
    | none => none
    | some (t, p1) =>
      match dequeueN n p1 with
      | none => none
      | some (ts, p2) => some (t :: ts, p2)

/-- One step of a thread running `ThreadPool::handleTask`, on the shared members.
`none` when the thread cannot move: blocked on an empty queue, or finished. -/
def handleTask (w : Worker) (p : ThreadPool) : Option (Worker × ThreadPool) :=
  match w.pc with
  | Pc.loopTest =>
    if w.gl_continue then some ({ w with pc := Pc.waitTask }, p)
    else some ({ w with pc := Pc.exited }, p)
  | Pc.waitTask =>
    match dequeue p with
    | none => none
    | some (t, p1) => some ({ w with pc := Pc.runTask t }, p1)
  | Pc.runTask t => some ({ t.call w with pc := Pc.afterTask }, p)
  | Pc.afterTask =>
    some ({ w with pc := Pc.loopTest },
          { p with working_thread_counter := p.working_thread_counter - 1 })
  | Pc.exited => none

/-- Thread number `i` of `_threads` takes one step of `handleTask`. -/
def stepWorker (i : Nat) (p : ThreadPool) : Option ThreadPool :=
  match p.threads[i]? with
  | none => none
  | some w =>
    match handleTask w p with
    | none => none
    | some (w1, p1) => some { p1 with threads := p1.threads.set i w1 }

/-- Guard of `_waiting_condition_variable.notify_all()` in `handleTask`:
`_tasks.empty() && _working_thread_counter == 0`, the idle state of the pool. -/
def idle (p : ThreadPool) : Bool :=
  p.tasks.isEmpty && p.working_thread_counter == 0

/-- Predicate of `ThreadPool::wait`: `[this] { return _tasks.empty(); }`. -/
def waitPredicate (p : ThreadPool) : Bool :=
  p.tasks.isEmpty

/-- Method `ThreadPool::wait`: `_waiting_condition_variable.wait(lock, pred)` is
`while (!pred()) wait(lock);`, so the call returns in a state where the predicate holds
(already at the call, or at a later wake-up) and stays blocked (`none`) otherwise. -/
def wait (p : ThreadPool) : Option ThreadPool :=
  if waitPredicate p then some p else none

/-- What can happen to a pool: a call of a public method, or a step of one worker. -/
inductive Event where
  | pushTask (t : Task)
  | pushPriorityTask (t : Task)
  | addThread (nb : Nat)
  | removeThread (nb : Nat)
  | worker (i : Nat)
  | wait
  deriving DecidableEq, Repr

/-- Step relation of the pool, as a function; `none` when the event is not enabled. -/
def step (p : ThreadPool) : Event → Option ThreadPool
  | Event.pushTask t => some (pushTask t p)
  | Event.pushPriorityTask t => some (pushPriorityTask t p)
  | Event.addThread nb => some (addThread nb p)
  | Event.removeThread nb => some (removeThread nb p)
  | Event.worker i => stepWorker i p
  | Event.wait => wait p

/-- Run a sequence of events. -/
def run : ThreadPool → List Event → Option ThreadPool
  | p, [] => some p
  | p, e :: es =>
    match step p e with
    | none => none
    | some p1 => run p1 es

/-- Workers scheduled one after the other; a scheduled worker that cannot move leaves the
pool as it is. -/
def schedule : List Nat → ThreadPool → ThreadPool
  | [], p => p
  | i :: is, p => schedule is ((stepWorker i p).getD p)

/-- Every `thread.join()` of `terminate` returns: each thread has left `handleTask`. -/
def joined (p : ThreadPool) : Bool :=
  p.threads.all (fun w => decide (w.pc = Pc.exited))

/-- Method `ThreadPool::terminate`. The queue is cleared, `removeThread(_threads.size())`
pushes the retire tasks, then the workers run (in the order `sched`) while `terminate`
sits in `thread.join()`; when all of them have left `handleTask` the joins return and both
deques are cleared. `none` when some worker has not left after `sched`: the join is still
blocked. -/
def terminate (sched : List Nat) (p : ThreadPool) : Option ThreadPool :=
  let p1 := { p with tasks := [] }
  let p2 := removeThread p1.threads.length p1
  let p3 := schedule sched p2
  if joined p3 then some { p3 with threads := [], tasks := [] } else none

/-- Tasks pushed one after the other with `pushTask`. -/
def pushTasks (ts : List Task) (p : ThreadPool) : ThreadPool :=
  ts.foldl (fun q t => pushTask t q) p

/-- Schedule under which the threads `i`, `i + 1`, ..., `i + n - 1` run one after the
other, seven steps each: the longest path of `handleTask` from any control point to its
exit when a retire task is at the front of the queue. -/
def exitSchedule : Nat → Nat → List Nat
  | _, 0 => []
  | i, n + 1 => List.replicate 7 i ++ exitSchedule (i + 1) n

/-- Worker counted by `_working_thread_counter`: past the `++` done at its dequeue and
not yet past the `--` that follows `task()`. -/
def isBusy (w : Worker) : Bool :=
  match w.pc with
  | Pc.runTask _ => true
  | Pc.afterTask => true
  | _ => false

/-- Worker still running its loop: `handleTask` has not returned. -/
def isRunning (w : Worker) : Bool :=
  decide (w.pc ≠ Pc.exited)

/-- Worker that has retired: `handleTask` has returned. -/
def isRetired (w : Worker) : Bool :=
  decide (w.pc = Pc.exited)

/-- Worker whose `gl_continue` is already `false` and that has not yet left
`handleTask`. -/
def isLeaving (w : Worker) : Bool :=
  !w.gl_continue && decide (w.pc ≠ Pc.exited)

/-- Number of workers still running their loop. -/
def nbRunning (p : ThreadPool) : Nat :=
  p.threads.countP isRunning

/-- Number of workers that have retired. -/
def nbRetired (p : ThreadPool) : Nat :=
  p.threads.countP isRetired

/-- Number of workers on their way out of the loop. -/
def nbLeaving (p : ThreadPool) : Nat :=
  p.threads.countP isLeaving

/-- Number of retire tasks waiting in `_tasks`. -/
def pendingRetire (p : ThreadPool) : Nat :=
  p.tasks.count Task.retire

/-- Ghost observation of an event: 1 when the event is the step in which a worker's call
`task()` of a retire task returns, 0 otherwise. -/
def retireCompleted (p : ThreadPool) : Event → Nat
  | Event.worker i =>
    match p.threads[i]? with
    | some w => if w.pc = Pc.runTask Task.retire then 1 else 0
    | none => 0
  | _ => 0

/-- Number of retire tasks whose execution has completed along a run. -/
def completedRetires : ThreadPool → List Event → Nat
  | _, [] => 0
  | p, e :: es =>
    match step p e with
    | none => 0
    | some p1 => retireCompleted p e + completedRetires p1 es

/-- Flag discipline of the workers: a worker whose `gl_continue` is `false` is past its
retire task (at the decrement, at the loop test, or out of the loop), and a worker that
has left the loop has `gl_continue = false`. -/
def flagsOk (p : ThreadPool) : Prop :=
  ∀ w ∈ p.threads,
    (w.gl_continue = false → w.pc = Pc.afterTask ∨ w.pc = Pc.loopTest ∨ w.pc = Pc.exited) ∧
    (w.pc = Pc.exited → w.gl_continue = false)

end ThreadPool

/-! ## koukan::Vector

A shallow embedding of `src/Vector.hpp`.

* The block `_array` is the list of its slots. A slot is `some x` when it holds the value
  `x` and `none` when it holds no usable value: raw memory obtained from `malloc` or
  `realloc`, an object whose destructor has run, or an object that has been moved from.
* Allocation is embedded at two levels. `realloc`, `malloc` and the definitions built on
  them (`allocate_pod`, `allocate_nonpod`, ..., `reserve`, `push_back`) describe the
  executions in which the allocator hands out the number of slots asked for. The
  definitions whose name ends in `_bytes` compute the byte count `sizeof(T) * _capacity` as
  the source does, in `size_t`, and ask an allocator that may answer `NULL`; the source
  never checks that answer.
* The argument of `push_back(T const& element)` is a value in `push_back` and a reference
  in `push_back_ref`, where it may designate a slot of the vector itself.
* `size_t` arithmetic is arithmetic modulo `2 ^ 64`; `CapacityTick` is the template
  argument, converted to `size_t` where the source mixes it with `size_t` values.
* An iterator is the index of the slot it points to (`current - _array`).
* The source selects the `_allocate`, `_erase` and `_clear` specialisation with
  `std::is_pod<T>`; here the flag `pod` tells which one is used.
-/

/-- Number of values of `size_t`: `SIZE_MAX + 1 = 2 ^ 64`. -/
def SIZE_MOD : Nat := 18446744073709551616

/-- Largest value of `ptrdiff_t`, which bounds the size of any allocated block. -/
def PTRDIFF_MAX : Nat := 9223372036854775807

/-- Addition of two `size_t` values. -/
def usize_add (a b : Nat) : Nat :=
  (a + b) % SIZE_MOD

/-- Subtraction of two `size_t` values. -/
def usize_sub (a b : Nat) : Nat :=
  (a + (SIZE_MOD - b % SIZE_MOD)) % SIZE_MOD

/-- Data members of `koukan::Vector<T, CapacityTick>`. -/
structure Vector (α : Type) where
  capacity : Nat
  size : Nat
  array : List (Option α)
  deriving DecidableEq, Repr

namespace Vector

/-- Default constructor `Vector() = default`: `_capacity = 0`, `_size = 0`,
`_array = nullptr`. -/
def new {α : Type} : Vector α :=
  { capacity := 0, size := 0, array := [] }

/-- Call `std::realloc`, granted, for a block of `n` slots: the first `min(old, n)` slots
keep their contents, the slots after them are raw. -/
def realloc {α : Type} (block : List (Option α)) (n : Nat) : List (Option α) :=
  block.take n ++ List.replicate (n - block.length) none

/-- Call `std::malloc`, granted, for a block of `n` slots: `n` raw slots. -/
def malloc {α : Type} (n : Nat) : List (Option α) :=
  List.replicate n none

/-- Call `std::memmove(&block[dst], &block[src], count)`: the `count` slots read at `src`
are written at `dst`, as if through a temporary buffer. -/
def memmove {α : Type} (block : List (Option α)) (dst src count : Nat) : List (Option α) :=
  block.take dst ++ ((block.drop src).take count ++ block.drop (dst + count))

/-- Loop `for (i = 0; i < _size; ++i) new (&tmp[i]) T(std::move(_array[i]));` of the
non-POD `_allocate`: `count` iterations left, starting at `i`. -/
def moveLoop {α : Type} (src : List (Option α)) : Nat → Nat → List (Option α) → List (Option α)
  | 0, _, tmp => tmp
  | count + 1, i, tmp => moveLoop src count (i + 1) (tmp.set i (src.getD i none))

/-- Specialisation of `_allocate(size_t size)` for POD types, the request granted:
`_capacity = size; _array = realloc(_array, sizeof(T) * _capacity);`. -/
def allocate_pod {α : Type} (n : Nat) (v : Vector α) : Vector α :=
  { v with capacity := n, array := realloc v.array n }

/-- Specialisation of `_allocate(size_t size)` for non-POD types, the request granted: a
new block of `size` slots into which the `_size` elements are moved; the old block is
freed. -/
def allocate_nonpod {α : Type} (n : Nat) (v : Vector α) : Vector α :=
  { v with capacity := n, array := moveLoop v.array v.size 0 (malloc n) }

/-- Private method `_allocate(size_t size)`, in the specialisation selected by `pod`. -/
def allocateTo {α : Type} (pod : Bool) (n : Nat) (v : Vector α) : Vector α :=
  if pod then allocate_pod n v else allocate_nonpod n v

/-- Private method `_allocate()`: `_allocate(_capacity + CapacityTick)`. -/
def allocate {α : Type} (tick : Nat) (pod : Bool) (v : Vector α) : Vector α :=
  allocateTo pod (usize_add v.capacity tick) v

/-- Private method `_deallocate()`: `_allocate(_capacity - CapacityTick)`. -/
def deallocate {α : Type} (tick : Nat) (pod : Bool) (v : Vector α) : Vector α :=
  allocateTo pod (usize_sub v.capacity tick) v

/-- Tail of both `_erase` specialisations:
`if ((_capacity - _size) > CapacityTick) this->_deallocate();`. -/
def shrink {α : Type} (tick : Nat) (pod : Bool) (v : Vector α) : Vector α :=
  if usize_sub v.capacity v.size > tick then deallocate tick pod v else v

/-- Specialisation of `_erase(size_t idx)` for POD types: `--_size`, then the slots behind
`idx` are moved one place down with `memmove`, then the block may shrink. -/
def erase_pod {α : Type} (tick : Nat) (idx : Nat) (v : Vector α) : Vector α :=
  let v1 := { v with size := usize_sub v.size 1 }
  let size := usize_sub v1.size idx
  let v2 :=
    if size > 0 then { v1 with array := memmove v1.array idx (usize_add idx 1) size } else v1
  shrink tick true v2

/-- Loop `for (idx = idx + 1; idx < _size; ++idx, ++elem) new (elem) T(std::move(_array[idx]));`
of the non-POD `_erase`: `count` iterations left, reading at `idx` and writing at `elem`;
the slot read is left moved-from. -/
def eraseLoop {α : Type} : Nat → Nat → Nat → List (Option α) → List (Option α)
  | 0, _, _, block => block
  | count + 1, idx, elem, block =>
    eraseLoop count (idx + 1) (elem + 1) ((block.set elem (block.getD idx none)).set idx none)

/-- Specialisation of `_erase(size_t idx)` for non-POD types: the element at `idx` is
destroyed, the elements behind it are moved one place down one by one, then `--_size`,
then the block may shrink. -/
def erase_nonpod {α : Type} (tick : Nat) (idx : Nat) (v : Vector α) : Vector α :=
  let destroyed := v.array.set idx none
  let start := usize_add idx 1
  let moved := eraseLoop (v.size - start) start idx destroyed
  shrink tick false { v with array := moved, size := usize_sub v.size 1 }

/-- Private method `_erase(size_t idx)`, in the specialisation selected by `pod`. -/
def eraseIdx {α : Type} (tick : Nat) (pod : Bool) (idx : Nat) (v : Vector α) : Vector α :=
  if pod then erase_pod tick idx v else erase_nonpod tick idx v

/-- Loop `for (i = 0; i < _size; ++i) _array[i].~T();` of the non-POD `_clear`. -/
def clearLoop {α : Type} : Nat → Nat → List (Option α) → List (Option α)
  | 0, _, block => block
  | count + 1, i, block => clearLoop count (i + 1) (block.set i none)

/-- Private method `_clear()`: nothing for POD types, the destructor of every element
otherwise. -/
def clearElements {α : Type} (pod : Bool) (v : Vector α) : Vector α :=
  if pod then v else { v with array := clearLoop v.size 0 v.array }

/-- Method `operator[](size_t pos)`: `_array[pos]`. -/
def get {α : Type} (v : Vector α) (pos : Nat) : Option α :=
  v.array.getD pos none

/-- Method `at(size_t pos)`: throws `std::out_of_range` when `pos >= _size`, returns
`_array[pos]` otherwise; the vector is returned as the call leaves it. -/
def at_ {α : Type} (v : Vector α) (pos : Nat) : Except String (Option α × Vector α) :=
  if pos ≥ v.size then Except.error "koukan::Vector : out of range"
  else Except.ok (v.array.getD pos none, v)

/-- Method `front()`: `*_array`. -/
def front {α : Type} (v : Vector α) : Option α :=
  v.array.getD 0 none

/-- Method `back()`: `_array[_size - 1]`. -/
def back {α : Type} (v : Vector α) : Option α :=
  v.array.getD (usize_sub v.size 1) none

/-- Method `push_back(T const& element)` called with an object that is not part of the
vector and holds the value `element`, the allocator granting the request if there is
one. -/
def push_back {α : Type} (tick : Nat) (pod : Bool) (element : α) (v : Vector α) : Vector α :=
  let v1 := if v.capacity = v.size then allocate tick pod v else v
  { v1 with array := v1.array.set v1.size (some element), size := usize_add v1.size 1 }

/-- Method `emplace_back(Args&&... args)`; `element` is the object `T(args...)` that the
placement new constructs. -/
def emplace_back {α : Type} (tick : Nat) (pod : Bool) (element : α) (v : Vector α) : Vector α :=
  let v1 := if v.capacity = v.size then allocate tick pod v else v
  { v1 with array := v1.array.set v1.size (some element), size := usize_add v1.size 1 }

/-- Method `pop_back()`: `_erase(_size - 1)`. -/
def pop_back {α : Type} (tick : Nat) (pod : Bool) (v : Vector α) : Vector α :=
  eraseIdx tick pod (usize_sub v.size 1) v

/-- Method `erase(iterator const& it)`; `it` is the index `it.current - _array`. Returns
the iterator `&_array[idx]` and the vector. -/
def erase {α : Type} (tick : Nat) (pod : Bool) (it : Nat) (v : Vector α) : Nat × Vector α :=
  let idx := it
  (idx, eraseIdx tick pod idx v)

/-- Method `clear()`: `_clear(); _size = 0;`. -/
def clear {α : Type} (pod : Bool) (v : Vector α) : Vector α :=
  { clearElements pod v with size := 0 }

/-- Method `reserve(size_t size)`. -/
def reserve {α : Type} (tick : Nat) (pod : Bool) (size : Nat) (v : Vector α) : Vector α :=
  if size < v.capacity then v
  else
    let size :=
      if size % tick ≠ 0 then usize_sub (usize_add size tick) (size % tick) else size
    allocateTo pod size v

/-- Method `resize(size_t size)`: `reserve(size); _size = size;`. -/
def resize {α : Type} (tick : Nat) (pod : Bool) (size : Nat) (v : Vector α) : Vector α :=
  { reserve tick pod size v with size := size }

/-- Method `end()`: the iterator `&_array[_size]`. -/
def endIt {α : Type} (v : Vector α) : Nat :=
  v.size

/-- Element sequence of the vector: the first `_size` slots of the block. -/
def elements {α : Type} (v : Vector α) : List (Option α) :=
  v.array.take v.size

/-- Representation of a live vector: the block has `_capacity` slots, and it is a block
that an allocator can return (no object is larger than `PTRDIFF_MAX`). -/
def IsVector {α : Type} (v : Vector α) : Prop :=
  v.array.length = v.capacity ∧ v.capacity ≤ PTRDIFF_MAX

/-- What `_allocate` depends on besides the vector: `sizeof(T)`, and the largest request,
in bytes, that `std::malloc` and `std::realloc` grant; above it they return `NULL`. -/
structure Storage where
  sizeofT : Nat
  limit : Nat
  deriving DecidableEq, Repr

/-- Argument `sizeof(T) * _capacity` of `std::malloc` and `std::realloc`: a product of
`size_t` values. -/
def byteCount (st : Storage) (capacity : Nat) : Nat :=
  (st.sizeofT * capacity) % SIZE_MOD

/-- Call `std::realloc(block, bytes)`, its result stored unchecked in `_array`. A request
that is not granted returns `NULL`: no slot. A granted one returns a block of
`bytes / sizeof(T)` slots (none when `bytes` is 0), the first of which keep their
contents. -/
def realloc_bytes {α : Type} (st : Storage) (block : List (Option α)) (bytes : Nat) :
    List (Option α) :=
  if bytes ≤ st.limit then realloc block (bytes / st.sizeofT) else []

/-- Call `std::malloc(bytes)`, its result used unchecked: no slot when the request is not
granted, `bytes / sizeof(T)` raw slots otherwise. -/
def malloc_bytes {α : Type} (st : Storage) (bytes : Nat) : List (Option α) :=
  if bytes ≤ st.limit then malloc (bytes / st.sizeofT) else []

/-- Specialisation of `_allocate(size_t size)` for POD types:
`_capacity = size; _array = realloc(_array, sizeof(T) * _capacity);`. -/
def allocate_pod_bytes {α : Type} (st : Storage) (n : Nat) (v : Vector α) : Vector α :=
  { v with capacity := n, array := realloc_bytes st v.array (byteCount st n) }

/-- Specialisation of `_allocate(size_t size)` for non-POD types:
`_capacity = size; tmp = malloc(sizeof(T) * _capacity);`, the `_size` elements are moved
into `tmp` (writes outside the block that was obtained are lost), the old block is
freed. -/
def allocate_nonpod_bytes {α : Type} (st : Storage) (n : Nat) (v : Vector α) : Vector α :=
  { v with capacity := n,
           array := moveLoop v.array v.size 0 (malloc_bytes st (byteCount st n)) }

/-- Private method `_allocate(size_t size)`, in the specialisation selected by `pod`. -/
def allocateTo_bytes {α : Type} (st : Storage) (pod : Bool) (n : Nat) (v : Vector α) :
    Vector α :=
  if pod then allocate_pod_bytes st n v else allocate_nonpod_bytes st n v

/-- Private method `_allocate()`: `_allocate(_capacity + CapacityTick)`. -/
def allocate_bytes {α : Type} (st : Storage) (tick : Nat) (pod : Bool) (v : Vector α) :
    Vector α :=
  allocateTo_bytes st pod (usize_add v.capacity tick) v

/-- Method `reserve(size_t size)`. -/
def reserve_bytes {α : Type} (st : Storage) (tick : Nat) (pod : Bool) (size : Nat)
    (v : Vector α) : Vector α :=
  if size < v.capacity then v
  else
    let size :=
      if size % tick ≠ 0 then usize_sub (usize_add size tick) (size % tick) else size
    allocateTo_bytes st pod size v

/-- Argument of `push_back(T const& element)`: a reference to an object outside the
vector, which holds the value `x`, or a reference to slot `i` of the vector's own block
(as in `v.push_back(v[i])`). -/
inductive Ref (α : Type) where
  | value (x : α)
  | slot (i : Nat)
  deriving DecidableEq, Repr

/-- What `T(element)` reads through the reference once `push_back` has gone past its call
of `_allocate()`: `reallocated` tells whether that call was made, `block` is the block at
that point. A reference into the old block designates no object any more after a
reallocation: `realloc` has given the old block back, or its objects have been moved from
and the block freed. -/
def deref {α : Type} (element : Ref α) (reallocated : Bool) (block : List (Option α)) :
    Option α :=
  match element with
  | Ref.value x => some x
  | Ref.slot i => if reallocated then none else block.getD i none

/-- Method `push_back(T const& element)`:
`if (_capacity == _size) _allocate(); new (&_array[_size]) T(element); ++_size;`. -/
def push_back_ref {α : Type} (st : Storage) (tick : Nat) (pod : Bool) (element : Ref α)
    (v : Vector α) : Vector α :=
  let v1 := if v.capacity = v.size then allocate_bytes st tick pod v else v
  { v1 with array := v1.array.set v1.size
                       (deref element (decide (v.capacity = v.size)) v1.array),
            size := usize_add v1.size 1 }

/-- Calls of the public methods that change a vector. -/
inductive Op (α : Type) where
  | push_back (element : α)
  | emplace_back (element : α)
  | pop_back
  | erase (it : Nat)
  | reserve (size : Nat)
  | resize (size : Nat)
  | clear
  deriving DecidableEq, Repr

/-- Effect of one call. -/
def apply {α : Type} (tick : Nat) (pod : Bool) (v : Vector α) : Op α → Vector α
  | Op.push_back x => push_back tick pod x v
  | Op.emplace_back x => emplace_back tick pod x v
  | Op.pop_back => pop_back tick pod v
  | Op.erase it => (erase tick pod it v).2
  | Op.reserve n => reserve tick pod n v
  | Op.resize n => resize tick pod n v
  | Op.clear => clear pod v

/-- Effect of a sequence of calls. -/
def applyAll {α : Type} (tick : Nat) (pod : Bool) : Vector α → List (Op α) → Vector α
  | v, [] => v
  | v, op :: ops => applyAll tick pod (apply tick pod v op) ops

/-- Smallest multiple of `tick` that is at least `n`, as a natural number. -/
def roundUp (tick n : Nat) : Nat :=
  if n % tick ≠ 0 then n + tick - n % tick else n

/-- Calls allowed on a vector: `pop_back` needs an element, `erase` a valid index, and no
capacity that the call asks for may exceed `SIZE_MAX` (a full vector grows by one tick,
`reserve` and `resize` round their argument up to a multiple of the tick). -/
def Op.allowed {α : Type} (tick : Nat) (v : Vector α) : Op α → Bool
  | Op.push_back _ => decide (v.size < v.capacity ∨ v.capacity + tick < SIZE_MOD)
  | Op.emplace_back _ => decide (v.size < v.capacity ∨ v.capacity + tick < SIZE_MOD)
  | Op.pop_back => decide (0 < v.size)
  | Op.erase it => decide (it < v.size)
  | Op.reserve n => decide (roundUp tick n < SIZE_MOD)
  | Op.resize n => decide (roundUp tick n < SIZE_MOD)
  | Op.clear => true

/-- Every call of the sequence is allowed on the vector it is applied to. -/
def allAllowed {α : Type} (tick : Nat) (pod : Bool) : Vector α → List (Op α) → Bool
  | _, [] => true
  | v, op :: ops => Op.allowed tick v op && allAllowed tick pod (apply tick pod v op) ops

end Vector

namespace ThreadPool

/-! ## Theorems -/

/-- Dequeuing as many tasks as the queue holds returns the queue, front first. -/
theorem dequeueN_length (p : ThreadPool) :
    dequeueN p.tasks.length p =
      some (p.tasks, { p with tasks := [],
                              working_thread_counter := p.working_thread_counter + p.tasks.length }) := by
  obtain ⟨ws, q, c⟩ := p
  induction q generalizing c with
  | nil => simp [dequeueN]
  | cons t rest ih =>
    simp only [List.length_cons, dequeueN, dequeue, ih]
    simp only [Nat.cast_add, Nat.cast_one, Option.some.injEq, Prod.mk.injEq, true_and]
    congr 1
    omega

/-- Closed form of a sequence of `pushTask`. -/
theorem pushTasks_eq (ts : List Task) (p : ThreadPool) :
    pushTasks ts p = { p with tasks := p.tasks ++ ts } := by
  induction ts generalizing p with
  | nil => simp [pushTasks]
  | cons t rest ih =>
    have h := ih (pushTask t p)
    simp only [pushTasks, List.foldl_cons] at h ⊢
    rw [h]
    simp [pushTask]

/-- Closed form of the loop of `addThread`. -/
theorem addThread_eq (nb : Nat) (p : ThreadPool) :
    addThread nb p = { p with threads := p.threads ++ List.replicate nb spawn } := by
  induction nb generalizing p with
  | zero => simp [addThread]
  | succ n ih =>
    rw [addThread, ih]
    simp [List.replicate_succ]

/-- Closed form of the loop of `removeThread`. -/
theorem removeThreadLoop_eq (nb : Nat) (p : ThreadPool) :
    removeThreadLoop nb p = { p with tasks := List.replicate nb Task.retire ++ p.tasks } := by
  induction nb generalizing p with
  | zero => simp [removeThreadLoop]
  | succ n ih =>
    rw [removeThreadLoop, ih]
    have h : List.replicate n Task.retire ++ Task.retire :: p.tasks
        = Task.retire :: (List.replicate n Task.retire ++ p.tasks) := by
      rw [← List.singleton_append, ← List.append_assoc, ← List.replicate_succ', List.replicate_succ]
      rfl
    simp [pushPriorityTask, List.replicate_succ, h]

/-- Closed form of `removeThread`. -/
theorem removeThread_eq (nb : Nat) (p : ThreadPool) :
    removeThread nb p =
      { p with tasks := List.replicate (min nb p.threads.length) Task.retire ++ p.tasks } := by
  rw [removeThread, removeThreadLoop_eq]
  congr 3
  split <;> omega

/-- Claim C1 (priority precedence). For every pool, whatever tasks `A1..Ak` its queue holds,
and every task `B`: after `pushPriorityTask B` the next dequeue yields `B` (a worker waiting
in `handleTask` goes on to run `B`), and the `k + 1` dequeues that follow the push yield
`B, A1, ..., Ak` in that order. -/
theorem priority_precedence (p : ThreadPool) (B : Task) :
    dequeue (pushPriorityTask B p)
        = some (B, { p with working_thread_counter := p.working_thread_counter + 1 }) ∧
      (∀ g, handleTask ⟨Pc.waitTask, g⟩ (pushPriorityTask B p)
        = some (⟨Pc.runTask B, g⟩,
                { p with working_thread_counter := p.working_thread_counter + 1 })) ∧
      (dequeueN (p.tasks.length + 1) (pushPriorityTask B p)).map Prod.fst
        = some (B :: p.tasks) := by
  refine ⟨rfl, fun g => rfl, ?_⟩
  have h := dequeueN_length (pushPriorityTask B p)
  simp only [pushPriorityTask, List.length_cons] at h
  simp [pushPriorityTask, h]

/-- Claim C2 (FIFO ordering). Pushing `t1..tN` with `pushTask`, with no dequeue in between,
turns the queue `q` into `q ++ [t1, ..., tN]`, makes `size()` grow by `N`, and the dequeues
that empty the queue return the tasks in exactly that order. -/
theorem fifo_ordering (p : ThreadPool) (ts : List Task) :
    (pushTasks ts p).tasks = p.tasks ++ ts ∧
      size (pushTasks ts p) = size p + ts.length ∧
      (dequeueN (size (pushTasks ts p)) (pushTasks ts p)).map Prod.fst
        = some (p.tasks ++ ts) := by
  refine ⟨by rw [pushTasks_eq], by simp [pushTasks_eq, size], ?_⟩
  rw [size, dequeueN_length]
  simp [pushTasks_eq]

/-- A step of `handleTask` does not touch `_threads`. -/
theorem handleTask_threads (w w1 : Worker) (p p1 : ThreadPool)
    (h : handleTask w p = some (w1, p1)) : p1.threads = p.threads := by
  obtain ⟨pc, g⟩ := w
  obtain ⟨ws, q, c⟩ := p
  cases pc with
  | loopTest =>
    cases g <;> simp [handleTask] at h <;> rw [← h.2]
  | waitTask =>
    cases q with
    | nil => simp [handleTask, dequeue] at h
    | cons t rest => simp [handleTask, dequeue] at h; rw [← h.2]
  | runTask t => simp [handleTask] at h; rw [← h.2]
  | afterTask => simp [handleTask] at h; rw [← h.2]
  | exited => simp [handleTask] at h

/-- A worker step keeps the number of entries of `_threads`. -/
theorem getNbThread_stepWorker (i : Nat) (p p1 : ThreadPool)
    (h : stepWorker i p = some p1) : getNbThread p1 = getNbThread p := by
  unfold stepWorker at h
  split at h
  · simp at h
  · rename_i w hw
    split at h
    · simp at h
    · rename_i w1 p2 hp2
      simp only [Option.some.injEq] at h
      rw [← h]
      simp [getNbThread, handleTask_threads w w1 p p2 hp2]

/-- No run of the workers changes `getNbThread()`. -/
theorem getNbThread_schedule (sched : List Nat) (p : ThreadPool) :
    getNbThread (schedule sched p) = getNbThread p := by
  induction sched generalizing p with
  | nil => rfl
  | cons i rest ih =>
    rw [schedule, ih]
    cases h : stepWorker i p with
    | none => rfl
    | some p1 => exact getNbThread_stepWorker i p p1 h

/-- Constructed with `nbThread > 0`, the pool has exactly `nbThread` threads. -/
theorem getNbThread_ctor_pos (h n : Nat) : getNbThread (ctor h (n + 1)) = n + 1 := by
  simp [ctor, addThread_eq, getNbThread, empty]

/-- Claim C3 (idle barrier), evaluated on the code. A pool with one worker receives one
task; the worker enters its loop and dequeues the task. In the state reached the task is
still executing and the counter is 1, the pool is not idle, and yet `wait()` returns,
because its predicate only looks at the queue. -/
theorem wait_returns_while_task_executing :
    run (ctor 1 1) [Event.pushTask (Task.user 0), Event.worker 0, Event.worker 0]
        = some ⟨[⟨Pc.runTask (Task.user 0), true⟩], [], 1⟩ ∧
      wait ⟨[⟨Pc.runTask (Task.user 0), true⟩], [], 1⟩
        = some ⟨[⟨Pc.runTask (Task.user 0), true⟩], [], 1⟩ ∧
      idle ⟨[⟨Pc.runTask (Task.user 0), true⟩], [], 1⟩ = false := by
  decide

/-- Claim C4 (pool count accounting), evaluated on the code. After `addThread(3)` and
`removeThread(2)` on a pool with `initial` threads, `getNbThread()` is `initial + 3`
whatever the workers do afterwards: threads that retire stay in `_threads`. With two
initial workers, once both retire tasks have been dequeued and executed and the two
workers have left `handleTask`, `getNbThread()` is 5 and not `2 - 2 + 3`. -/
theorem getNbThread_counts_exited_threads :
    (∀ p sched,
      getNbThread (schedule sched (removeThread 2 (addThread 3 p))) = getNbThread p + 3) ∧
    schedule [0, 0, 0, 0, 0, 1, 1, 1, 1, 1] (removeThread 2 (addThread 3 (ctor 1 2)))
      = ⟨[⟨Pc.exited, false⟩, ⟨Pc.exited, false⟩, spawn, spawn, spawn], [], 0⟩ ∧
    getNbThread
        (schedule [0, 0, 0, 0, 0, 1, 1, 1, 1, 1] (removeThread 2 (addThread 3 (ctor 1 2))))
      ≠ 2 - 2 + 3 := by
  refine ⟨fun p sched => ?_, by decide, by decide⟩
  rw [getNbThread_schedule, removeThread_eq, addThread_eq]
  simp [getNbThread]

/-- Claim C6 (default worker count), evaluated on the code. When
`std::thread::hardware_concurrency()` returns 0, the pool constructed with `nbThread = 0`
has no worker at all, not the `max(h - 1, 1) = 1` worker of the claim. -/
theorem ctor_zero_hardware_concurrency :
    getNbThread (ctor 0 0) = 0 ∧ getNbThread (ctor 0 0) ≠ max (0 - 1) 1 := by
  decide

/-- Claim C7 as stated fails: after `pushPriorityTask(P1)` then `pushPriorityTask(P2)` on an
empty queue, the two dequeues yield `P2` first and `P1` second. -/
theorem priority_tasks_not_fifo :
    (dequeue (pushPriorityTask (Task.user 2) (pushPriorityTask (Task.user 1) empty))).map
        Prod.fst = some (Task.user 2) ∧
      (dequeueN 2 (pushPriorityTask (Task.user 2) (pushPriorityTask (Task.user 1) empty))).map
        Prod.fst = some [Task.user 2, Task.user 1] := by
  decide

/-- Claim C7, amended (order among priority tasks). For every queue and every two tasks
`P1`, `P2`, after `pushPriorityTask(P1)` then `pushPriorityTask(P2)` with no dequeue in
between, `P2` is at the front and `P1` right behind it: `P2` is dequeued before `P1`, and
both before everything that was queued earlier. -/
theorem priority_tasks_lifo (p : ThreadPool) (P1 P2 : Task) :
    (pushPriorityTask P2 (pushPriorityTask P1 p)).tasks = P2 :: P1 :: p.tasks ∧
    (dequeueN (p.tasks.length + 2) (pushPriorityTask P2 (pushPriorityTask P1 p))).map Prod.fst
      = some (P2 :: P1 :: p.tasks) := by
  refine ⟨rfl, ?_⟩
  have h := dequeueN_length (pushPriorityTask P2 (pushPriorityTask P1 p))
  simp only [pushPriorityTask, List.length_cons] at h
  simp [pushPriorityTask, h]

/-- Claim C8 (removeThread clamping). For every `nb` and every pool, `removeThread(nb)` puts
exactly `min(nb, getNbThread())` retire tasks at the front of the queue, so `size()` grows by
that amount; `getNbThread()` and `_threads` are unchanged; on a pool without threads nothing
is enqueued. -/
theorem removeThread_clamps (nb : Nat) (p : ThreadPool) :
    (removeThread nb p).tasks
        = List.replicate (min nb (getNbThread p)) Task.retire ++ p.tasks ∧
      size (removeThread nb p) = size p + min nb (getNbThread p) ∧
      getNbThread (removeThread nb p) = getNbThread p ∧
      (removeThread nb p).threads = p.threads ∧
      removeThread nb { p with threads := [] } = { p with threads := [] } := by
  refine ⟨?_, ?_, ?_, ?_, ?_⟩
  · rw [removeThread_eq]; rfl
  · rw [removeThread_eq]; simp [size, getNbThread]; omega
  · rw [removeThread_eq]; rfl
  · rw [removeThread_eq]
  · rw [removeThread_eq]; simp

/-- Claim C9 (no task loss on resize). `addThread(nb)` leaves the queue exactly as it was;
after `removeThread(nb)` the queue is the old queue behind a block of retire tasks, so the
tasks other than retire tasks are the same, in the same order, and every user task occurs
as often as before. -/
theorem no_task_loss_on_resize (nb : Nat) (p : ThreadPool) :
    (addThread nb p).tasks = p.tasks ∧
      (removeThread nb p).tasks
        = List.replicate (min nb (getNbThread p)) Task.retire ++ p.tasks ∧
      (removeThread nb p).tasks.filter (fun t => decide (t ≠ Task.retire))
        = p.tasks.filter (fun t => decide (t ≠ Task.retire)) ∧
      ∀ id, (removeThread nb p).tasks.count (Task.user id) = p.tasks.count (Task.user id) := by
  refine ⟨by rw [addThread_eq], by rw [removeThread_eq]; rfl, ?_, fun id => ?_⟩
  · rw [removeThread_eq]
    simp [List.filter_append, List.filter_replicate]
  · rw [removeThread_eq]
    simp [List.count_append, List.count_replicate]

/-- Claim C10 as stated fails: with four logical processors the pool constructed with
`nbThread = 0` does not have four workers. -/
theorem ctor_default_not_hardware_concurrency :
    ¬ (getNbThread (ctor 4 0) = 4) := by
  decide

/-- Claim C10, amended (default of the constructor). When the machine reports `h >= 1`
logical processors, the pool constructed with `nbThread = 0` has `h - 1` workers if
`h >= 2` and one worker if `h = 1`. -/
theorem ctor_default (h : Nat) (h1 : 1 ≤ h) :
    getNbThread (ctor h 0) = max (h - 1) 1 := by
  unfold ctor
  simp only [↓reduceIte]
  split
  · rw [addThread_eq]; simp [getNbThread, empty]; omega
  · rw [addThread_eq]; simp [getNbThread, empty]; omega

/-- Instance of `ctor_default` on a machine with eight logical processors. -/
theorem ctor_default_witness : 1 ≤ 8 ∧ getNbThread (ctor 8 0) = max (8 - 1) 1 :=
  ⟨by decide, ctor_default 8 (by decide)⟩

/-- Running two schedules in a row. -/
theorem schedule_append (s1 s2 : List Nat) (p : ThreadPool) :
    schedule (s1 ++ s2) p = schedule s2 (schedule s1 p) := by
  induction s1 generalizing p with
  | nil => rfl
  | cons i rest ih => simp [schedule, ih]

/-- A step of the thread that sits behind `done` in `_threads`. -/
theorem stepWorker_mid (done rest : List Worker) (w : Worker) (q : List Task) (c : Int) :
    stepWorker done.length ⟨done ++ w :: rest, q, c⟩ =
      match handleTask w ⟨[], q, c⟩ with
      | none => none
      | some (w1, p1) => some ⟨done ++ w1 :: rest, p1.tasks, p1.working_thread_counter⟩ := by
  have hget : (done ++ w :: rest)[done.length]? = some w := by
    rw [List.getElem?_append_right (le_refl _)]
    simp
  have hset : ∀ w1, (done ++ w :: rest).set done.length w1 = done ++ w1 :: rest := by
    intro w1
    simp [List.set_append]
  unfold stepWorker
  simp only [hget]
  obtain ⟨pc, g⟩ := w
  cases pc with
  | loopTest => cases g <;> simp [handleTask, hset]
  | waitTask => cases q <;> simp [handleTask, dequeue, hset]
  | runTask t => simp [handleTask, hset]
  | afterTask => simp [handleTask, hset]
  | exited => simp [handleTask]

/-- With a retire task at the front of a queue of retire tasks, seven steps take a thread
from any control point out of `handleTask`, and it consumes at most one retire task. -/
theorem schedule_exit (done rest : List Worker) (w : Worker) (m : Nat) (c : Int) :
    ∃ w1 m1 c1,
      schedule (List.replicate 7 done.length)
          ⟨done ++ w :: rest, List.replicate (m + 1) Task.retire, c⟩
        = ⟨done ++ w1 :: rest, List.replicate m1 Task.retire, c1⟩ ∧
      w1.pc = Pc.exited ∧ m ≤ m1 := by
  obtain ⟨pc, g⟩ := w
  cases pc with
  | loopTest =>
    cases g
    · exact ⟨⟨Pc.exited, false⟩, m + 1, c,
        by simp [schedule, stepWorker_mid, handleTask, List.replicate], rfl, by omega⟩
    · exact ⟨⟨Pc.exited, false⟩, m, c,
        by simp [schedule, stepWorker_mid, handleTask, dequeue, Task.call, List.replicate],
        rfl, by omega⟩
  | waitTask =>
    exact ⟨⟨Pc.exited, false⟩, m, c,
      by simp [schedule, stepWorker_mid, handleTask, dequeue, Task.call, List.replicate],
      rfl, by omega⟩
  | runTask t =>
    cases t with
    | user id =>
      cases g
      · exact ⟨⟨Pc.exited, false⟩, m + 1, c - 1,
          by simp [schedule, stepWorker_mid, handleTask, dequeue, Task.call, List.replicate],
          rfl, by omega⟩
      · exact ⟨⟨Pc.exited, false⟩, m, c - 1,
          by simp [schedule, stepWorker_mid, handleTask, dequeue, Task.call, List.replicate],
          rfl, by omega⟩
    | retire =>
      exact ⟨⟨Pc.exited, false⟩, m + 1, c - 1,
        by simp [schedule, stepWorker_mid, handleTask, dequeue, Task.call, List.replicate],
        rfl, by omega⟩
  | afterTask =>
    cases g
    · exact ⟨⟨Pc.exited, false⟩, m + 1, c - 1,
        by simp [schedule, stepWorker_mid, handleTask, List.replicate], rfl, by omega⟩
    · exact ⟨⟨Pc.exited, false⟩, m, c - 1,
        by simp [schedule, stepWorker_mid, handleTask, dequeue, Task.call, List.replicate],
        rfl, by omega⟩
  | exited =>
    exact ⟨⟨Pc.exited, g⟩, m + 1, c,
      by simp [schedule, stepWorker_mid, handleTask, List.replicate], rfl, by omega⟩

/-- With at least as many retire tasks queued as there are threads left to run, running the
threads one after the other takes all of them out of `handleTask`. -/
theorem schedule_exitSchedule (rest : List Worker) :
    ∀ (done : List Worker) (m : Nat) (c : Int), rest.length ≤ m →
      (∀ w ∈ done, w.pc = Pc.exited) →
      ∃ ws m1 c1,
        schedule (exitSchedule done.length rest.length)
            ⟨done ++ rest, List.replicate m Task.retire, c⟩
          = ⟨ws, List.replicate m1 Task.retire, c1⟩ ∧
        ∀ w ∈ ws, w.pc = Pc.exited := by
  induction rest with
  | nil =>
    intro done m c _ hd
    exact ⟨done, m, c, by simp [exitSchedule, schedule], hd⟩
  | cons w rest ih =>
    intro done m c hm hd
    obtain ⟨m0, rfl⟩ : ∃ m0, m = m0 + 1 := ⟨m - 1, by simp at hm; omega⟩
    obtain ⟨w1, m1, c1, hrun, hw1, hm1⟩ := schedule_exit done rest w m0 c
    have hd1 : ∀ x ∈ done ++ [w1], x.pc = Pc.exited := by
      intro x hx
      rcases List.mem_append.mp hx with hx | hx
      · exact hd x hx
      · simp at hx; rw [hx]; exact hw1
    obtain ⟨ws, m2, c2, hrun2, hws⟩ :=
      ih (done ++ [w1]) m1 c1 (by simp at hm; omega) hd1
    refine ⟨ws, m2, c2, ?_, hws⟩
    simp only [List.length_cons, exitSchedule, schedule_append, hrun]
    simpa using hrun2

/-- Claim C5 (terminate postcondition). From every pool state (any threads at any control
point, some of them possibly retired already, any queue, retire tasks included) there is a
run of the workers after which every join of `terminate()` returns, and whenever
`terminate()` returns, `getNbThread()` and `size()` are both 0. -/
theorem terminate_postcondition (p : ThreadPool) :
    (∃ sched p1, terminate sched p = some p1) ∧
      ∀ sched p1, terminate sched p = some p1 → getNbThread p1 = 0 ∧ size p1 = 0 := by
  constructor
  · obtain ⟨ws, m1, c1, hrun, hws⟩ :=
      schedule_exitSchedule p.threads [] p.threads.length p.working_thread_counter
        (le_refl _) (by simp)
    refine ⟨exitSchedule 0 p.threads.length, ⟨[], [], c1⟩, ?_⟩
    simp only [List.length_nil, List.nil_append] at hrun
    simp [terminate, removeThread_eq, hrun, joined]
    exact hws
  · intro sched p1 h
    unfold terminate at h
    simp only at h
    split at h
    · simp only [Option.some.injEq] at h
      rw [← h]
      exact ⟨rfl, rfl⟩
    · simp at h

/-- Instance of `terminate_postcondition`: two threads, one of them running a retire task,
and three tasks queued. -/
theorem terminate_postcondition_witness :
    terminate [0, 0, 0, 1, 1, 1, 1, 1] ⟨[⟨Pc.runTask Task.retire, true⟩, spawn],
        [Task.retire, Task.user 1, Task.user 2], 1⟩ = some ⟨[], [], 0⟩ ∧
      getNbThread ⟨[], [], 0⟩ = 0 ∧ size ⟨[], [], 0⟩ = 0 :=
  ⟨by decide,
   (terminate_postcondition ⟨[⟨Pc.runTask Task.retire, true⟩, spawn],
        [Task.retire, Task.user 1, Task.user 2], 1⟩).2 [0, 0, 0, 1, 1, 1, 1, 1] ⟨[], [], 0⟩
      (by decide)⟩

/-- Shapes of a step of `handleTask`. -/
theorem handleTask_cases (w w1 : Worker) (p p1 : ThreadPool)
    (h : handleTask w p = some (w1, p1)) :
    (w.pc = Pc.loopTest ∧ w.gl_continue = true ∧ w1 = ⟨Pc.waitTask, true⟩ ∧ p1 = p) ∨
    (w.pc = Pc.loopTest ∧ w.gl_continue = false ∧ w1 = ⟨Pc.exited, false⟩ ∧ p1 = p) ∨
    (w.pc = Pc.waitTask ∧ ∃ t rest, p.tasks = t :: rest ∧
        w1 = ⟨Pc.runTask t, w.gl_continue⟩ ∧
        p1 = { p with tasks := rest,
                      working_thread_counter := p.working_thread_counter + 1 }) ∨
    (∃ t, w.pc = Pc.runTask t ∧ w1 = ⟨Pc.afterTask, (t.call w).gl_continue⟩ ∧ p1 = p) ∨
    (w.pc = Pc.afterTask ∧ w1 = ⟨Pc.loopTest, w.gl_continue⟩ ∧
        p1 = { p with working_thread_counter := p.working_thread_counter - 1 }) := by
  obtain ⟨pc, g⟩ := w
  obtain ⟨ws, q, c⟩ := p
  cases pc with
  | loopTest =>
    cases g <;> simp [handleTask] at h <;> simp [← h.1, ← h.2]
  | waitTask =>
    cases q with
    | nil => simp [handleTask, dequeue] at h
    | cons t rest => simp [handleTask, dequeue] at h; simp [← h.1, ← h.2]
  | runTask t => simp [handleTask] at h; simp [← h.1, ← h.2]
  | afterTask => simp [handleTask] at h; simp [← h.1, ← h.2]
  | exited => simp [handleTask] at h

/-- A worker step, spelled out. -/
theorem stepWorker_some (i : Nat) (p p2 : ThreadPool) (h : stepWorker i p = some p2) :
    ∃ w w1 p1, p.threads[i]? = some w ∧ handleTask w p = some (w1, p1) ∧
      p2 = { p1 with threads := p.threads.set i w1 } := by
  unfold stepWorker at h
  split at h
  · simp at h
  · rename_i w hw
    split at h
    · simp at h
    · rename_i w1 p1 hp1
      simp only [Option.some.injEq] at h
      exact ⟨w, w1, p1, hw, hp1, by rw [← h, handleTask_threads w w1 p p1 hp1]⟩

/-- Replacing one entry of a list changes a count by what the old and the new entry
contribute. -/
theorem countP_set_add (f : Worker → Bool) (ws : List Worker) (i : Nat) (w w1 : Worker)
    (h : ws[i]? = some w) :
    (ws.set i w1).countP f + (if f w then 1 else 0)
      = ws.countP f + (if f w1 then 1 else 0) := by
  induction ws generalizing i with
  | nil => simp at h
  | cons a rest ih =>
    cases i with
    | zero =>
      simp at h
      subst h
      simp [List.countP_cons]
      omega
    | succ j =>
      simp at h
      have := ih j h
      simp [List.countP_cons]
      omega

/-- A property kept by every step holds along every run. -/
theorem run_invariant (P : ThreadPool → Prop)
    (hstep : ∀ p e p1, P p → step p e = some p1 → P p1) :
    ∀ (evs : List Event) (p p1 : ThreadPool), P p → run p evs = some p1 → P p1 := by
  intro evs
  induction evs with
  | nil =>
    intro p p1 hp hr
    simp [run] at hr
    rw [← hr]; exact hp
  | cons e es ih =>
    intro p p1 hp hr
    rw [run] at hr
    split at hr
    · simp at hr
    · rename_i p2 hp2
      exact ih p2 p1 (hstep p e p2 hp hp2) hr

/-- Every step keeps the counter at its initial value plus the number of busy workers. -/
theorem counter_offset_step (c0 : Int) (p : ThreadPool) (e : Event) (p1 : ThreadPool)
    (hp : p.working_thread_counter = c0 + (p.threads.countP isBusy : Int))
    (hs : step p e = some p1) :
    p1.working_thread_counter = c0 + (p1.threads.countP isBusy : Int) := by
  cases e with
  | pushTask t => simp [step] at hs; rw [← hs]; simpa [pushTask] using hp
  | pushPriorityTask t => simp [step] at hs; rw [← hs]; simpa [pushPriorityTask] using hp
  | addThread nb =>
    simp [step] at hs; rw [← hs, addThread_eq]
    simp [List.countP_append, List.countP_replicate, isBusy, spawn, hp]
  | removeThread nb => simp [step] at hs; rw [← hs, removeThread_eq]; simpa using hp
  | wait =>
    simp only [step, wait] at hs
    split at hs
    · simp at hs; rw [← hs]; exact hp
    · simp at hs
  | worker i =>
    simp only [step] at hs
    obtain ⟨w, w1, p2, hw, hh, rfl⟩ := stepWorker_some i p p1 hs
    have hc := countP_set_add isBusy p.threads i w w1 hw
    rcases handleTask_cases w w1 p p2 hh with
      ⟨h1, _, rfl, rfl⟩ | ⟨h1, _, rfl, rfl⟩ | ⟨h1, t, rest, _, rfl, rfl⟩ | ⟨t, h1, rfl, rfl⟩ |
      ⟨h1, rfl, rfl⟩ <;>
    · simp [isBusy, h1] at hc
      simp only [hp]
      omega

/-- Busy workers are running workers. -/
theorem countP_isBusy_le (ws : List Worker) :
    ws.countP isBusy ≤ ws.countP isRunning := by
  apply List.countP_mono_left
  intro w _ hw
  obtain ⟨pc, g⟩ := w
  cases pc <;> simp_all [isBusy, isRunning]

/-- Along every run from the constructor the counter is the value its storage held at
construction plus the number of workers between their `++` and their `--`; so the bounds
`0 <= counter <= running workers` hold along every run when that value is 0. -/
theorem counter_offset_run (c0 : Int) (h n : Nat) (evs : List Event) (p : ThreadPool)
    (hr : run (ctorFrom c0 h n) evs = some p) :
    p.working_thread_counter = c0 + (p.threads.countP isBusy : Int) ∧
      (c0 = 0 → 0 ≤ p.working_thread_counter ∧
        p.working_thread_counter ≤ (nbRunning p : Int)) := by
  have hinit : (ctorFrom c0 h n).working_thread_counter
      = c0 + ((ctorFrom c0 h n).threads.countP isBusy : Int) := by
    simp [ctorFrom, addThread_eq, uninitialised, List.countP_replicate, isBusy, spawn]
  have hp := run_invariant
    (fun q => q.working_thread_counter = c0 + (q.threads.countP isBusy : Int))
    (counter_offset_step c0) evs (ctorFrom c0 h n) p hinit hr
  simp only at hp
  refine ⟨hp, fun h0 => ?_⟩
  have hle : ((p.threads.countP isBusy : Nat) : Int) ≤ (nbRunning p : Int) := by
    rw [nbRunning]
    exact_mod_cast countP_isBusy_le p.threads
  omega

/-- Claim C11 (active-worker counter invariant), evaluated on the code. The class gives
`_working_thread_counter` no initialiser and the constructor never stores to it, so the
pool starts with whatever value the storage holds. With `-1` there, the pool right after
construction has a negative counter; with `7` there and two workers, the counter exceeds
the number of running workers; and after a worker has taken a task the counter is still
off by that value. -/
theorem counter_never_initialised :
    (ctorFrom (-1) 4 2).working_thread_counter = -1 ∧
      ¬ (0 ≤ (ctorFrom (-1) 4 2).working_thread_counter) ∧
      nbRunning (ctorFrom 7 4 2) = 2 ∧
      ¬ ((ctorFrom 7 4 2).working_thread_counter ≤ (nbRunning (ctorFrom 7 4 2) : Int)) ∧
      run (ctorFrom 7 4 2) [Event.pushTask (Task.user 1), Event.worker 0, Event.worker 0]
        = some ⟨[⟨Pc.runTask (Task.user 1), true⟩, spawn], [], 8⟩ := by
  decide

/-- Retired and leaving workers are the workers whose flag is cleared. -/
theorem countP_retired_leaving (ws : List Worker)
    (h : ∀ w ∈ ws, w.pc = Pc.exited → w.gl_continue = false) :
    ws.countP isRetired + ws.countP isLeaving = ws.countP (fun w => !w.gl_continue) := by
  induction ws with
  | nil => rfl
  | cons a rest ih =>
    have ha := h a (List.mem_cons_self _ _)
    have hr := ih (fun w hw => h w (List.mem_cons_of_mem _ hw))
    obtain ⟨pc, g⟩ := a
    simp only [List.countP_cons]
    cases g <;> cases pc <;> simp_all [isRetired, isLeaving] <;> omega

/-- Every step keeps the flag discipline and adds to the number of cleared flags exactly
what the ghost observation of the event says. -/
theorem flags_step (p : ThreadPool) (e : Event) (p1 : ThreadPool)
    (hp : flagsOk p) (hs : step p e = some p1) :
    flagsOk p1 ∧
      p1.threads.countP (fun w => !w.gl_continue)
        = p.threads.countP (fun w => !w.gl_continue) + retireCompleted p e := by
  cases e with
  | pushTask t =>
    simp [step] at hs; rw [← hs]
    exact ⟨hp, by simp [pushTask, retireCompleted]⟩
  | pushPriorityTask t =>
    simp [step] at hs; rw [← hs]
    exact ⟨hp, by simp [pushPriorityTask, retireCompleted]⟩
  | addThread nb =>
    simp [step] at hs; rw [← hs, addThread_eq]
    refine ⟨?_, by simp [List.countP_append, List.countP_replicate, spawn, retireCompleted]⟩
    intro w hw
    simp only [List.mem_append] at hw
    rcases hw with hw | hw
    · exact hp w hw
    · rw [List.eq_of_mem_replicate hw]
      simp [spawn]
  | removeThread nb =>
    simp [step] at hs; rw [← hs, removeThread_eq]
    exact ⟨hp, by simp [retireCompleted]⟩
  | wait =>
    simp only [step, wait] at hs
    split at hs
    · simp at hs; rw [← hs]; exact ⟨hp, by simp [retireCompleted]⟩
    · simp at hs
  | worker i =>
    simp only [step] at hs
    obtain ⟨w, w1, p2, hw, hh, rfl⟩ := stepWorker_some i p p1 hs
    have hc := countP_set_add (fun w => !w.gl_continue) p.threads i w w1 hw
    have hmem : w ∈ p.threads := List.getElem?_mem hw
    have hwp := hp w hmem
    have hset : ∀ x ∈ p.threads.set i w1, x = w1 ∨ x ∈ p.threads := by
      intro x hx
      rcases List.mem_or_eq_of_mem_set hx with hx | hx
      · exact Or.inr hx
      · exact Or.inl hx
    obtain ⟨pc, g⟩ := w
    rcases handleTask_cases _ w1 p p2 hh with
      ⟨h1, h2, rfl, rfl⟩ | ⟨h1, h2, rfl, rfl⟩ | ⟨h1, t, rest, _, rfl, rfl⟩ | ⟨t, h1, rfl, rfl⟩ |
      ⟨h1, rfl, rfl⟩
    all_goals simp only at h1
    all_goals subst h1
    · constructor
      · intro x hx
        rcases hset x hx with rfl | hx
        · simp
        · exact hp x hx
      · simp at h2; subst h2
        simp [retireCompleted, hw] at hc ⊢
        omega
    · constructor
      · intro x hx
        rcases hset x hx with rfl | hx
        · simp
        · exact hp x hx
      · simp at h2; subst h2
        simp [retireCompleted, hw] at hc ⊢
        omega
    · have hg : g = true := by
        cases g
        · simp at hwp
        · rfl
      subst hg
      constructor
      · intro x hx
        rcases hset x hx with rfl | hx
        · simp
        · exact hp x hx
      · simp [retireCompleted, hw] at hc ⊢
        omega
    · have hg : g = true := by
        cases g
        · simp at hwp
        · rfl
      subst hg
      constructor
      · intro x hx
        rcases hset x hx with rfl | hx
        · simp
        · exact hp x hx
      · cases t with
        | user id =>
          simp [retireCompleted, hw, Task.call] at hc ⊢
          omega
        | retire =>
          simp [retireCompleted, hw, Task.call] at hc ⊢
          omega
    · constructor
      · intro x hx
        rcases hset x hx with rfl | hx
        · simp
        · exact hp x hx
      · simp [retireCompleted, hw] at hc ⊢
        omega

/-- Along every run the flag discipline is kept and the cleared flags count the completed
retire tasks. -/
theorem flags_run (evs : List Event) :
    ∀ (p p1 : ThreadPool), flagsOk p → run p evs = some p1 →
      flagsOk p1 ∧
        p1.threads.countP (fun w => !w.gl_continue)
          = p.threads.countP (fun w => !w.gl_continue) + completedRetires p evs := by
  induction evs with
  | nil =>
    intro p p1 hp hr
    simp [run] at hr
    rw [← hr]
    exact ⟨hp, by simp [completedRetires]⟩
  | cons e es ih =>
    intro p p1 hp hr
    rw [run] at hr
    split at hr
    · simp at hr
    · rename_i p2 hp2
      obtain ⟨h1, h2⟩ := flags_step p e p2 hp hp2
      obtain ⟨h3, h4⟩ := ih p2 p1 h1 hr
      refine ⟨h3, ?_⟩
      rw [h4, h2]
      simp only [completedRetires, hp2]
      omega

/-- Claim C12 as stated fails in the state where the call `task()` of a retire task has
returned and the worker is still at `--_working_thread_counter`: one retire task has
completed and no worker has retired yet. -/
theorem retired_lags_completed_retire :
    run (ctor 1 1) [Event.removeThread 1, Event.worker 0, Event.worker 0, Event.worker 0]
        = some ⟨[⟨Pc.afterTask, false⟩], [], 1⟩ ∧
      completedRetires (ctor 1 1)
        [Event.removeThread 1, Event.worker 0, Event.worker 0, Event.worker 0] = 1 ∧
      nbRetired ⟨[⟨Pc.afterTask, false⟩], [], 1⟩ = 0 := by
  decide

/-- Claim C12, amended (retirement only via a completed retire task). In every reachable
state the retired workers together with the workers that have finished a retire task and
not yet left the loop are as many as the retire tasks whose execution has completed; the
latter workers are at the counter decrement or at the loop test, so they take no further
task; a worker whose flag is still set has not retired; and a worker step that changes the
number of retired workers is the loop test of a worker whose flag is cleared, and retires
exactly that one worker. -/
theorem retirement_only_by_retire_task (h n : Nat) (evs : List Event) (p : ThreadPool)
    (hr : run (ctor h n) evs = some p) :
    nbRetired p + nbLeaving p = completedRetires (ctor h n) evs ∧
      (∀ w ∈ p.threads, isLeaving w = true → w.pc = Pc.afterTask ∨ w.pc = Pc.loopTest) ∧
      (∀ w ∈ p.threads, w.gl_continue = true → w.pc ≠ Pc.exited) ∧
      (∀ i p1, stepWorker i p = some p1 → nbRetired p1 ≠ nbRetired p →
        p.threads[i]? = some ⟨Pc.loopTest, false⟩ ∧ nbRetired p1 = nbRetired p + 1) := by
  have hinit : flagsOk (ctor h n) := by
    intro w hw
    simp only [ctor, addThread_eq, empty, List.nil_append] at hw
    rw [List.eq_of_mem_replicate hw]
    simp [spawn]
  obtain ⟨hf, hc⟩ := flags_run evs (ctor h n) p hinit hr
  have h0 : (ctor h n).threads.countP (fun w => !w.gl_continue) = 0 := by
    simp [ctor, addThread_eq, empty, List.countP_replicate, spawn]
  refine ⟨?_, ?_, ?_, ?_⟩
  · rw [nbRetired, nbLeaving, countP_retired_leaving p.threads (fun w hw => (hf w hw).2), hc, h0]
    omega
  · intro w hw hl
    simp only [isLeaving, Bool.and_eq_true, Bool.not_eq_true', decide_eq_true_eq] at hl
    rcases (hf w hw).1 hl.1 with h1 | h1 | h1
    · exact Or.inl h1
    · exact Or.inr h1
    · exact absurd h1 hl.2
  · intro w hw hg hx
    have := (hf w hw).2 hx
    rw [hg] at this
    exact absurd this (by simp)
  · intro i p1 hs hne
    obtain ⟨w, w1, p2, hw, hh, rfl⟩ := stepWorker_some i p p1 hs
    have hcnt := countP_set_add isRetired p.threads i w w1 hw
    simp only [nbRetired] at hne ⊢
    obtain ⟨pc, g⟩ := w
    rcases handleTask_cases _ w1 p p2 hh with
      ⟨h1, h2, rfl, rfl⟩ | ⟨h1, h2, rfl, rfl⟩ | ⟨h1, t, rest, _, rfl, rfl⟩ | ⟨t, h1, rfl, rfl⟩ |
      ⟨h1, rfl, rfl⟩
    all_goals simp only at h1
    all_goals subst h1
    all_goals simp [isRetired] at hcnt
    · exact absurd hcnt hne
    · simp at h2; subst h2
      exact ⟨hw, by simpa using hcnt⟩
    · exact absurd hcnt hne
    · exact absurd hcnt hne
    · exact absurd hcnt hne

/-- Instance of `retirement_only_by_retire_task`: of two workers, one has run a retire task
and left the loop. -/
theorem retirement_only_by_retire_task_witness :
    run (ctor 1 2) [Event.removeThread 1, Event.worker 0, Event.worker 0, Event.worker 0,
        Event.worker 0, Event.worker 0]
      = some ⟨[⟨Pc.exited, false⟩, spawn], [], 0⟩ ∧
    nbRetired ⟨[⟨Pc.exited, false⟩, spawn], [], 0⟩ + nbLeaving ⟨[⟨Pc.exited, false⟩, spawn], [], 0⟩
      = completedRetires (ctor 1 2) [Event.removeThread 1, Event.worker 0, Event.worker 0,
          Event.worker 0, Event.worker 0, Event.worker 0] :=
  ⟨by decide,
   (retirement_only_by_retire_task 1 2 _ _ (by decide : run (ctor 1 2) [Event.removeThread 1,
        Event.worker 0, Event.worker 0, Event.worker 0, Event.worker 0, Event.worker 0]
      = some ⟨[⟨Pc.exited, false⟩, spawn], [], 0⟩)).1⟩

/-- Claim C13 (pending retire tasks never exceed live workers), evaluated on the code.
The only worker of a pool retires after `removeThread(1)`; a second `removeThread(1)` is
clamped against `_threads.size()`, which still counts the retired thread, and queues a
retire task although no worker is running. A worker added afterwards by `addThread(1)`
dequeues that leftover retire task and leaves its loop. -/
theorem leftover_retire_task_kills_added_worker :
    run (ctor 1 1) [Event.removeThread 1, Event.worker 0, Event.worker 0, Event.worker 0,
        Event.worker 0, Event.worker 0, Event.removeThread 1]
      = some ⟨[⟨Pc.exited, false⟩], [Task.retire], 0⟩ ∧
    pendingRetire ⟨[⟨Pc.exited, false⟩], [Task.retire], 0⟩ = 1 ∧
    nbRunning ⟨[⟨Pc.exited, false⟩], [Task.retire], 0⟩ = 0 ∧
    run ⟨[⟨Pc.exited, false⟩], [Task.retire], 0⟩ [Event.addThread 1, Event.worker 1,
        Event.worker 1, Event.worker 1, Event.worker 1, Event.worker 1]
      = some ⟨[⟨Pc.exited, false⟩, ⟨Pc.exited, false⟩], [], 0⟩ := by
  decide

end ThreadPool

namespace Vector

/-- Addition of `size_t` values that does not wrap around. -/
theorem usize_add_eq (a b : Nat) (h : a + b < SIZE_MOD) : usize_add a b = a + b := by
  simp only [usize_add, SIZE_MOD] at *
  omega

/-- Subtraction of `size_t` values that does not wrap around. -/
theorem usize_sub_eq (a b : Nat) (hb : b ≤ a) (ha : a < SIZE_MOD) : usize_sub a b = a - b := by
  simp only [usize_sub, SIZE_MOD] at *
  omega

/-- The value `roundUp tick n` is the smallest multiple of `tick` that is at least `n`. -/
theorem roundUp_spec (tick n : Nat) (ht : 0 < tick) :
    tick ∣ roundUp tick n ∧ n ≤ roundUp tick n ∧
      ∀ m, tick ∣ m → n ≤ m → roundUp tick n ≤ m := by
  have hr : n % tick < tick := Nat.mod_lt n ht
  have hd : tick * (n / tick) + n % tick = n := Nat.div_add_mod n tick
  unfold roundUp
  split
  · rename_i hne
    have he : n + tick - n % tick = tick * (n / tick + 1) := by
      rw [Nat.mul_add, Nat.mul_one]; omega
    refine ⟨?_, by omega, ?_⟩
    · rw [he]; exact Nat.dvd_mul_right _ _
    · intro m hm hnm
      obtain ⟨k, rfl⟩ := hm
      rw [he]
      apply Nat.mul_le_mul_left
      by_contra hk
      have hk1 : k ≤ n / tick := by omega
      have := Nat.mul_le_mul_left tick hk1
      omega
  · rename_i he
    simp only [ne_eq, Decidable.not_not] at he
    exact ⟨Nat.dvd_of_mod_eq_zero he, le_refl _, fun m _ h => h⟩

/-- The size that `reserve` computes is `roundUp tick n` when that value is a `size_t`. -/
theorem reserve_size_eq (tick n : Nat) (ht : 0 < tick) (h : roundUp tick n < SIZE_MOD) :
    (if n % tick ≠ 0 then usize_sub (usize_add n tick) (n % tick) else n) = roundUp tick n := by
  have hr : n % tick < tick := Nat.mod_lt n ht
  unfold roundUp at *
  split
  · rename_i hne
    simp only [hne, ↓reduceIte, ne_eq, not_false_eq_true] at h
    simp only [usize_sub, usize_add, SIZE_MOD] at *
    omega
  · rfl

/-- The loop of the non-POD `_allocate` copies the slots it visits. -/
theorem moveLoop_append {α : Type} (xs : List (Option α)) :
    ∀ (s0 s1 pre ys rest : List (Option α)), s0.length = pre.length → ys.length = xs.length →
      moveLoop (s0 ++ (xs ++ s1)) xs.length pre.length (pre ++ (ys ++ rest))
        = pre ++ (xs ++ rest) := by
  induction xs with
  | nil =>
    intro s0 s1 pre ys rest _ hy
    have : ys = [] := List.eq_nil_of_length_eq_zero (by simpa using hy)
    subst this
    simp [moveLoop]
  | cons x xs ih =>
    intro s0 s1 pre ys rest hs hy
    cases ys with
    | nil => simp at hy
    | cons y ys =>
      have hget : (s0 ++ (x :: xs ++ s1)).getD pre.length none = x := by
        rw [List.getD_eq_getElem?_getD, List.getElem?_append_right (by omega)]
        simp [hs]
      have hset : (pre ++ (y :: ys ++ rest)).set pre.length x
          = (pre ++ [x]) ++ (ys ++ rest) := by
        simp
      have hsrc : s0 ++ (x :: xs ++ s1) = (s0 ++ [x]) ++ (xs ++ s1) := by simp
      simp only [List.length_cons, moveLoop, hget, hset]
      rw [hsrc]
      have := ih (s0 ++ [x]) s1 (pre ++ [x]) ys rest (by simp [hs]) (by simpa using hy)
      simp only [List.length_append, List.length_singleton] at this
      rw [this]
      simp

/-- The non-POD `_allocate` moves the first `_size` slots into a fresh block. -/
theorem moveLoop_malloc {α : Type} (src : List (Option α)) (size n : Nat)
    (h1 : size ≤ n) (h2 : size ≤ src.length) :
    moveLoop src size 0 (malloc n) = src.take size ++ List.replicate (n - size) none := by
  have h := moveLoop_append (src.take size) [] (src.drop size) []
    (List.replicate size none) (List.replicate (n - size) none) rfl (by simp; omega)
  simp only [List.nil_append, List.take_append_drop, List.length_take, List.length_nil] at h
  rw [Nat.min_eq_left h2] at h
  rw [← h, malloc, ← List.replicate_add]
  congr 2
  omega

/-- Reallocation to at least `_size` slots keeps the element sequence. -/
theorem elements_allocateTo {α : Type} (pod : Bool) (n : Nat) (v : Vector α)
    (h1 : v.size ≤ n) (h2 : v.size ≤ v.array.length) :
    elements (allocateTo pod n v) = elements v := by
  cases pod
  · simp only [allocateTo, allocate_nonpod, elements, Bool.false_eq_true, ↓reduceIte]
    rw [moveLoop_malloc _ _ _ h1 h2, List.take_append_of_le_length (by simp; omega)]
    simp
  · simp only [allocateTo, allocate_pod, elements, realloc, ↓reduceIte]
    rw [List.take_append_of_le_length (by simp; omega)]
    simp [List.take_take]
    omega

/-- Reallocation returns a block with the number of slots asked for. -/
theorem length_allocateTo {α : Type} (pod : Bool) (n : Nat) (v : Vector α)
    (h1 : v.size ≤ n) (h2 : v.size ≤ v.array.length) :
    (allocateTo pod n v).array.length = n := by
  cases pod
  · simp only [allocateTo, allocate_nonpod, Bool.false_eq_true, ↓reduceIte]
    rw [moveLoop_malloc _ _ _ h1 h2]
    simp
    omega
  · simp only [allocateTo, allocate_pod, realloc, ↓reduceIte]
    simp
    omega

/-- Reallocation sets the capacity. -/
theorem capacity_allocateTo {α : Type} (pod : Bool) (n : Nat) (v : Vector α) :
    (allocateTo pod n v).capacity = n := by
  cases pod <;> rfl

/-- Reallocation keeps `_size`. -/
theorem size_allocateTo {α : Type} (pod : Bool) (n : Nat) (v : Vector α) :
    (allocateTo pod n v).size = v.size := by
  cases pod <;> rfl

/-- The loop of the non-POD `_erase` moves the slots behind the hole one place down and
leaves the hole behind them. -/
theorem eraseLoop_append {α : Type} (count : Nat) :
    ∀ (pre post : List (Option α)), count ≤ post.length →
      eraseLoop count (pre.length + 1) pre.length (pre ++ none :: post)
        = pre ++ (post.take count ++ none :: post.drop count) := by
  induction count with
  | zero =>
    intro pre post _
    simp [eraseLoop]
  | succ k ih =>
    intro pre post h
    cases post with
    | nil => simp at h
    | cons x post =>
      have hget : (pre ++ none :: x :: post).getD (pre.length + 1) none = x := by
        rw [List.getD_eq_getElem?_getD, List.getElem?_append_right (by omega)]
        simp
      have hset : ((pre ++ none :: x :: post).set pre.length x).set (pre.length + 1) none
          = (pre ++ [x]) ++ none :: post := by
        simp
      rw [eraseLoop, hget, hset]
      have := ih (pre ++ [x]) post (by simpa using h)
      simp only [List.length_append, List.length_singleton] at this
      rw [this]
      simp

/-- Effect of the shrinking test that ends `_erase`. -/
theorem shrink_spec {α : Type} (tick : Nat) (pod : Bool) (w : Vector α)
    (hl : w.array.length = w.capacity) (hM : w.capacity < SIZE_MOD)
    (hs : w.size ≤ w.capacity) :
    (shrink tick pod w).size = w.size ∧
      (shrink tick pod w).capacity
        = (if w.capacity - w.size > tick then w.capacity - tick else w.capacity) ∧
      elements (shrink tick pod w) = elements w ∧
      (shrink tick pod w).array.length = (shrink tick pod w).capacity := by
  have hsub : usize_sub w.capacity w.size = w.capacity - w.size :=
    usize_sub_eq _ _ hs hM
  unfold shrink
  rw [hsub]
  split
  · rename_i h
    have ht : usize_sub w.capacity tick = w.capacity - tick :=
      usize_sub_eq _ _ (by omega) hM
    have h1 : w.size ≤ w.capacity - tick := by omega
    simp only [deallocate, ht]
    exact ⟨size_allocateTo _ _ _, capacity_allocateTo _ _ _,
      elements_allocateTo _ _ _ h1 (by omega),
      by rw [length_allocateTo _ _ _ h1 (by omega), capacity_allocateTo]⟩
  · exact ⟨rfl, rfl, rfl, hl⟩

/-- The POD `_erase` before its shrinking test. -/
theorem erase_pod_split {α : Type} (tick cap size : Nat) (pre post : List (Option α)) (a : Option α)
    (hl : (pre ++ a :: post).length = cap) (hM : cap < SIZE_MOD)
    (hi : pre.length < size) (hs : size ≤ cap) :
    ∃ block : List (Option α),
      erase_pod tick pre.length ⟨cap, size, pre ++ a :: post⟩
        = shrink tick true ⟨cap, size - 1, block⟩ ∧
      block.length = cap ∧
      block.take (size - 1) = pre ++ post.take (size - 1 - pre.length) := by
  have h1 : usize_sub size 1 = size - 1 := usize_sub_eq _ _ (by omega) (by omega)
  have h2 : usize_sub (size - 1) pre.length = size - 1 - pre.length :=
    usize_sub_eq _ _ (by omega) (by omega)
  have h3 : usize_add pre.length 1 = pre.length + 1 := usize_add_eq _ _ (by omega)
  simp only [List.length_append, List.length_cons] at hl
  by_cases hc : size - 1 - pre.length > 0
  · refine ⟨memmove (pre ++ a :: post) pre.length (pre.length + 1) (size - 1 - pre.length),
      by simp [erase_pod, h1, h2, h3, hc], ?_, ?_⟩
    · simp [memmove]
      omega
    · simp only [memmove, List.take_left', List.drop_left']
      have hd : (pre ++ a :: post).drop (pre.length + 1) = post := by
        rw [show pre ++ a :: post = (pre ++ [a]) ++ post by simp]
        exact List.drop_left' (by simp)
      rw [hd, ← List.append_assoc, List.take_append_of_le_length (by simp; omega)]
      rw [List.take_of_length_le (by simp; omega)]
  · refine ⟨pre ++ a :: post, by simp [erase_pod, h1, h2, hc], by simp; omega, ?_⟩
    have h0 : size - 1 = pre.length := by omega
    rw [h0]
    simp

/-- The non-POD `_erase` before its shrinking test. -/
theorem erase_nonpod_split {α : Type} (tick cap size : Nat) (pre post : List (Option α)) (a : Option α)
    (hl : (pre ++ a :: post).length = cap) (hM : cap < SIZE_MOD)
    (hi : pre.length < size) (hs : size ≤ cap) :
    ∃ block : List (Option α),
      erase_nonpod tick pre.length ⟨cap, size, pre ++ a :: post⟩
        = shrink tick false ⟨cap, size - 1, block⟩ ∧
      block.length = cap ∧
      block.take (size - 1) = pre ++ post.take (size - 1 - pre.length) := by
  have h1 : usize_sub size 1 = size - 1 := usize_sub_eq _ _ (by omega) (by omega)
  have h3 : usize_add pre.length 1 = pre.length + 1 := usize_add_eq _ _ (by omega)
  simp only [List.length_append, List.length_cons] at hl
  have hset : (pre ++ a :: post).set pre.length none = pre ++ none :: post := by simp
  have hcnt : size - (pre.length + 1) ≤ post.length := by omega
  refine ⟨pre ++ (post.take (size - (pre.length + 1)) ++
      none :: post.drop (size - (pre.length + 1))), ?_, ?_, ?_⟩
  · simp only [erase_nonpod, h1, h3, hset]
    rw [eraseLoop_append _ pre post hcnt]
  · simp
    omega
  · rw [← List.append_assoc, List.take_append_of_le_length (by simp; omega)]
    rw [List.take_of_length_le (by simp; omega)]
    have hc : size - (pre.length + 1) = size - 1 - pre.length := by omega
    rw [hc]

/-- Effect of `_erase(idx)` at a valid index, for either specialisation. -/
theorem eraseIdx_spec {α : Type} (tick : Nat) (pod : Bool) (idx : Nat) (v : Vector α)
    (hl : v.array.length = v.capacity) (hM : v.capacity < SIZE_MOD)
    (hs : v.size ≤ v.capacity) (hi : idx < v.size) :
    (eraseIdx tick pod idx v).size = v.size - 1 ∧
      (eraseIdx tick pod idx v).capacity
        = (if v.capacity - (v.size - 1) > tick then v.capacity - tick else v.capacity) ∧
      elements (eraseIdx tick pod idx v) = (elements v).eraseIdx idx ∧
      (eraseIdx tick pod idx v).array.length = (eraseIdx tick pod idx v).capacity := by
  obtain ⟨cap, size, arr⟩ := v
  simp only at hl hM hs hi
  have hidx : idx < arr.length := by omega
  have hsplit : arr = arr.take idx ++ arr[idx] :: arr.drop (idx + 1) := by
    rw [List.getElem_cons_drop, List.take_append_drop]
  have hpre : (arr.take idx).length = idx := by simp; omega
  have helem : (elements ⟨cap, size, arr⟩).eraseIdx idx
      = arr.take idx ++ (arr.drop (idx + 1)).take (size - 1 - idx) := by
    simp only [elements]
    rw [List.eraseIdx_eq_take_drop_succ, List.take_take, Nat.min_eq_left (by omega),
      List.drop_take]
    congr 2
    omega
  have key : ∃ block : List (Option α),
      eraseIdx tick pod idx ⟨cap, size, arr⟩ = shrink tick pod ⟨cap, size - 1, block⟩ ∧
      block.length = cap ∧
      block.take (size - 1) = arr.take idx ++ (arr.drop (idx + 1)).take (size - 1 - idx) := by
    cases pod
    · have := erase_nonpod_split tick cap size (arr.take idx) (arr.drop (idx + 1)) arr[idx]
        (by rw [← hsplit]; exact hl) hM (by omega) hs
      rw [hpre, ← hsplit] at this
      simpa [eraseIdx] using this
    · have := erase_pod_split tick cap size (arr.take idx) (arr.drop (idx + 1)) arr[idx]
        (by rw [← hsplit]; exact hl) hM (by omega) hs
      rw [hpre, ← hsplit] at this
      simpa [eraseIdx] using this
  obtain ⟨block, he, hbl, hbt⟩ := key
  have hsh := shrink_spec tick pod ⟨cap, size - 1, block⟩ hbl hM (by simp only; omega)
  rw [he, helem]
  simp only at hsh ⊢
  refine ⟨hsh.1, hsh.2.1, ?_, hsh.2.2.2⟩
  rw [hsh.2.2.1, elements]
  exact hbt

/-- A live vector has a capacity that is a `size_t`. -/
theorem IsVector.lt_size_mod {α : Type} {v : Vector α} (hv : IsVector v) : v.capacity < SIZE_MOD := by
  have := hv.2
  simp only [PTRDIFF_MAX, SIZE_MOD] at *
  omega

/-- The slots below `_size` are read off the element sequence. -/
theorem get_eq_of_elements {α : Type} (v w : Vector α) (i : Nat) (h : elements w = elements v)
    (hv : i < v.size) (hw : i < w.size) : get w i = get v i := by
  have h1 : (elements w)[i]? = (elements v)[i]? := by rw [h]
  simp only [elements, List.getElem?_take_of_lt hv, List.getElem?_take_of_lt hw] at h1
  simp [get, List.getD_eq_getElem?_getD, h1]

/-- Claim C15 (fast path equals general path). For every live vector with
`size <= capacity` and every `idx < size`, the POD specialisation of `_erase` and the
non-POD one leave the same size, the same capacity and the same element sequence, which
is the original sequence without the element at `idx`. -/
theorem erase_pod_eq_erase_nonpod {α : Type} (tick idx : Nat) (v : Vector α) (hv : IsVector v)
    (hs : v.size ≤ v.capacity) (hi : idx < v.size) :
    (erase_pod tick idx v).size = (erase_nonpod tick idx v).size ∧
      (erase_pod tick idx v).capacity = (erase_nonpod tick idx v).capacity ∧
      elements (erase_pod tick idx v) = elements (erase_nonpod tick idx v) ∧
      elements (erase_pod tick idx v) = (elements v).eraseIdx idx := by
  have hp := eraseIdx_spec tick true idx v hv.1 hv.lt_size_mod hs hi
  have hn := eraseIdx_spec tick false idx v hv.1 hv.lt_size_mod hs hi
  simp only [eraseIdx, ↓reduceIte, Bool.false_eq_true] at hp hn
  exact ⟨by rw [hp.1, hn.1], by rw [hp.2.1, hn.2.1], by rw [hp.2.2.1, hn.2.2.1], hp.2.2.1⟩

/-- Instance of `erase_pod_eq_erase_nonpod`: four elements in six slots, index 1. -/
theorem erase_pod_eq_erase_nonpod_witness :
    (erase_pod 2 1 (⟨6, 4, [some 10, some 11, some 12, some 13, none, none]⟩ : Vector Nat)).size
        = (erase_nonpod 2 1 ⟨6, 4, [some 10, some 11, some 12, some 13, none, none]⟩).size ∧
      (erase_pod 2 1 (⟨6, 4, [some 10, some 11, some 12, some 13, none, none]⟩ : Vector Nat)).capacity
        = (erase_nonpod 2 1 ⟨6, 4, [some 10, some 11, some 12, some 13, none, none]⟩).capacity ∧
      elements (erase_pod 2 1 (⟨6, 4, [some 10, some 11, some 12, some 13, none, none]⟩ : Vector Nat))
        = elements (erase_nonpod 2 1 ⟨6, 4, [some 10, some 11, some 12, some 13, none, none]⟩) ∧
      elements (erase_pod 2 1 (⟨6, 4, [some 10, some 11, some 12, some 13, none, none]⟩ : Vector Nat))
        = (elements ⟨6, 4, [some 10, some 11, some 12, some 13, none, none]⟩).eraseIdx 1 :=
  erase_pod_eq_erase_nonpod 2 1 ⟨6, 4, [some 10, some 11, some 12, some 13, none, none]⟩
    ⟨by decide, by decide⟩ (by decide) (by decide)

/-- Claim C16 (erase removes exactly one element). For every live vector with elements
`e0..e(n-1)` and every iterator at an index `idx < n`, `erase(it)` leaves the elements
`e0..e(idx-1), e(idx+1)..e(n-1)` in that order (the elements before `idx` stay in place,
those behind it move one place down), makes the size `n - 1`, and returns the iterator at
index `idx`, which is `end()` when `idx` was the last index. -/
theorem erase_removes_one {α : Type} (tick : Nat) (pod : Bool) (idx : Nat) (v : Vector α)
    (hv : IsVector v) (hs : v.size ≤ v.capacity) (hi : idx < v.size) :
    elements (erase tick pod idx v).2 = (elements v).eraseIdx idx ∧
      (erase tick pod idx v).2.size = v.size - 1 ∧
      (erase tick pod idx v).1 = idx ∧
      (∀ j, j < idx → get (erase tick pod idx v).2 j = get v j) ∧
      (∀ j, idx ≤ j → j + 1 < v.size → get (erase tick pod idx v).2 j = get v (j + 1)) ∧
      (idx + 1 = v.size → (erase tick pod idx v).1 = endIt (erase tick pod idx v).2) := by
  have h := eraseIdx_spec tick pod idx v hv.1 hv.lt_size_mod hs hi
  have hget : ∀ j, j < v.size - 1 →
      (eraseIdx tick pod idx v).array[j]? = ((elements v).eraseIdx idx)[j]? := by
    intro j hj
    rw [← h.2.2.1, elements, h.1, List.getElem?_take_of_lt hj]
  simp only [erase]
  refine ⟨h.2.2.1, h.1, trivial, ?_, ?_, ?_⟩
  · intro j hj
    simp only [get, List.getD_eq_getElem?_getD]
    rw [hget j (by omega), List.getElem?_eraseIdx_of_lt _ _ _ hj, elements,
      List.getElem?_take_of_lt (by omega)]
  · intro j hj hj1
    simp only [get, List.getD_eq_getElem?_getD]
    rw [hget j (by omega), List.getElem?_eraseIdx_of_ge _ _ _ hj, elements,
      List.getElem?_take_of_lt (by omega)]
  · intro hlast
    simp only [endIt, h.1]
    omega

/-- Instance of `erase_removes_one`: the last of three elements is erased. -/
theorem erase_removes_one_witness :
    elements (erase 4 false 2 (⟨4, 3, [some 5, some 6, some 7, none]⟩ : Vector Nat)).2
        = (elements ⟨4, 3, [some 5, some 6, some 7, none]⟩).eraseIdx 2 ∧
      (erase 4 false 2 (⟨4, 3, [some 5, some 6, some 7, none]⟩ : Vector Nat)).2.size = 3 - 1 ∧
      (erase 4 false 2 (⟨4, 3, [some 5, some 6, some 7, none]⟩ : Vector Nat)).1 = 2 :=
  have h := erase_removes_one 4 false 2 (⟨4, 3, [some 5, some 6, some 7, none]⟩ : Vector Nat)
    ⟨by decide, by decide⟩ (by decide) (by decide)
  ⟨h.1, h.2.1, h.2.2.1⟩

/-- Claim C17 (at is bounds-checked). For every vector and every `pos`, `at(pos)` throws
if and only if `pos >= size()`; otherwise it returns the slot that `operator[]` returns
and leaves the vector as it was. -/
theorem at_bounds_checked {α : Type} (v : Vector α) (pos : Nat) :
    ((∃ msg, at_ v pos = Except.error msg) ↔ pos ≥ v.size) ∧
      (pos < v.size → at_ v pos = Except.ok (get v pos, v)) := by
  unfold at_ get
  constructor
  · constructor
    · rintro ⟨msg, h⟩
      split at h
      · assumption
      · simp at h
    · intro h
      exact ⟨_, by rw [if_pos h]⟩
  · intro h
    rw [if_neg (by omega)]

/-- Instance of `at_bounds_checked`: a position inside a vector of two elements. -/
theorem at_bounds_checked_witness :
    at_ (⟨4, 2, [some 5, some 6, none, none]⟩ : Vector Nat) 1
      = Except.ok (get ⟨4, 2, [some 5, some 6, none, none]⟩ 1, ⟨4, 2, [some 5, some 6, none, none]⟩) :=
  (at_bounds_checked (⟨4, 2, [some 5, some 6, none, none]⟩ : Vector Nat) 1).2 (by decide)

/-- A granted request of `sizeof(T) * n` bytes is a block of `n` slots. -/
theorem allocateTo_bytes_eq {α : Type} (st : Storage) (pod : Bool) (n : Nat) (v : Vector α)
    (h0 : 0 < st.sizeofT) (hn : st.sizeofT * n ≤ st.limit) (hl : st.limit ≤ PTRDIFF_MAX) :
    allocateTo_bytes st pod n v = allocateTo pod n v := by
  have hlt : st.sizeofT * n < SIZE_MOD := by
    simp only [PTRDIFF_MAX, SIZE_MOD] at *
    omega
  have hb : byteCount st n = st.sizeofT * n := Nat.mod_eq_of_lt hlt
  have hd : st.sizeofT * n / st.sizeofT = n := Nat.mul_div_cancel_left n h0
  cases pod
  · simp [allocateTo_bytes, allocate_nonpod_bytes, malloc_bytes, allocateTo, allocate_nonpod,
      hb, hn, hd]
  · simp [allocateTo_bytes, allocate_pod_bytes, realloc_bytes, allocateTo, allocate_pod,
      hb, hn, hd]

/-- Claim C18 as stated fails, in two ways, on a vector of `int` (`sizeof` 4) with one
element and capacity 16, `CapacityTick` being 16. `reserve(SIZE_MAX)` rounds its argument
up to `2 ^ 64`, which wraps around to 0: the capacity becomes 0, not a value
`>= SIZE_MAX`. `reserve(2 ^ 62)` sets the capacity to `2 ^ 62` and asks `realloc` for
`4 * 2 ^ 62` bytes, which wraps around to 0 bytes: the block is given back and the element
is lost. Both specialisations do so. -/
theorem reserve_wraps_around :
    push_back_ref ⟨4, 9223372036854775807⟩ 16 true (Ref.value 7) (new : Vector Nat)
        = ⟨16, 1, some 7 :: List.replicate 15 none⟩ ∧
      (reserve_bytes ⟨4, 9223372036854775807⟩ 16 true 18446744073709551615
          (⟨16, 1, some 7 :: List.replicate 15 none⟩ : Vector Nat)).capacity = 0 ∧
      (reserve_bytes ⟨4, 9223372036854775807⟩ 16 false 18446744073709551615
          (⟨16, 1, some 7 :: List.replicate 15 none⟩ : Vector Nat)).capacity = 0 ∧
      elements (⟨16, 1, some 7 :: List.replicate 15 none⟩ : Vector Nat) = [some 7] ∧
      reserve_bytes ⟨4, 9223372036854775807⟩ 16 true 4611686018427387904
          (⟨16, 1, some 7 :: List.replicate 15 none⟩ : Vector Nat)
        = ⟨4611686018427387904, 1, []⟩ ∧
      reserve_bytes ⟨4, 9223372036854775807⟩ 16 false 4611686018427387904
          (⟨16, 1, some 7 :: List.replicate 15 none⟩ : Vector Nat)
        = ⟨4611686018427387904, 1, []⟩ ∧
      elements (⟨4611686018427387904, 1, []⟩ : Vector Nat) = [] := by
  decide

/-- Claim C18, amended (reserve rounds up to the tick). For every live vector
(`size <= capacity`, `CapacityTick > 0`), every element size and allocator and every `n`:
after `reserve(n)` the size is unchanged; if `n < c` the vector is left as it is; if
`n >= c` and the allocator grants a block of some multiple of `CapacityTick` that is at
least `n` elements (`sizeof(T)` times that multiple is at most what the allocator grants,
hence at most `PTRDIFF_MAX`), the elements are unchanged, the capacity becomes the smallest
multiple of `CapacityTick` that is at least `n`, and the block has that many slots. -/
theorem reserve_rounds_up {α : Type} (st : Storage) (tick : Nat) (pod : Bool) (n : Nat)
    (v : Vector α) (ht : 0 < tick) (h0 : 0 < st.sizeofT) (hl : st.limit ≤ PTRDIFF_MAX)
    (hv : IsVector v) (hs : v.size ≤ v.capacity) :
    (reserve_bytes st tick pod n v).size = v.size ∧
      (n < v.capacity → reserve_bytes st tick pod n v = v) ∧
      (v.capacity ≤ n → ∀ c, tick ∣ c → n ≤ c → st.sizeofT * c ≤ st.limit →
        elements (reserve_bytes st tick pod n v) = elements v ∧
        tick ∣ (reserve_bytes st tick pod n v).capacity ∧
        n ≤ (reserve_bytes st tick pod n v).capacity ∧
        (∀ m, tick ∣ m → n ≤ m → (reserve_bytes st tick pod n v).capacity ≤ m) ∧
        (reserve_bytes st tick pod n v).array.length
          = (reserve_bytes st tick pod n v).capacity) := by
  have hr := roundUp_spec tick n ht
  refine ⟨?_, ?_, ?_⟩
  · unfold reserve_bytes
    split
    · rfl
    · cases pod <;> rfl
  · intro hc
    simp only [reserve_bytes, hc, ↓reduceIte]
  · intro hc c hd hnc hbytes
    have hrc : roundUp tick n ≤ c := hr.2.2 c hd hnc
    have hmul : st.sizeofT * roundUp tick n ≤ st.sizeofT * c := Nat.mul_le_mul_left _ hrc
    have hone : roundUp tick n ≤ st.sizeofT * roundUp tick n :=
      Nat.le_mul_of_pos_left _ h0
    have hlt : roundUp tick n < SIZE_MOD := by
      simp only [PTRDIFF_MAX, SIZE_MOD] at *
      omega
    have hsz := reserve_size_eq tick n ht hlt
    have e : reserve_bytes st tick pod n v = allocateTo pod (roundUp tick n) v := by
      simp only [reserve_bytes, Nat.not_lt.mpr hc, ↓reduceIte, hsz]
      exact allocateTo_bytes_eq st pod _ v h0 (by omega) hl
    rw [e]
    have h1 : v.size ≤ roundUp tick n := by omega
    have h2 : v.size ≤ v.array.length := by rw [hv.1]; exact hs
    rw [capacity_allocateTo, length_allocateTo _ _ _ h1 h2]
    exact ⟨elements_allocateTo _ _ _ h1 h2, hr.1, hr.2.1, hr.2.2, rfl⟩

/-- Instance of `reserve_rounds_up`: `reserve(17)` on a vector of `int` of capacity 16. -/
theorem reserve_rounds_up_witness :
    elements (reserve_bytes ⟨4, 1024⟩ 16 false 17
        (⟨16, 2, [some 1, some 2] ++ List.replicate 14 none⟩ : Vector Nat))
      = elements ⟨16, 2, [some 1, some 2] ++ List.replicate 14 none⟩ ∧
    16 ∣ (reserve_bytes ⟨4, 1024⟩ 16 false 17
        (⟨16, 2, [some 1, some 2] ++ List.replicate 14 none⟩ : Vector Nat)).capacity ∧
    17 ≤ (reserve_bytes ⟨4, 1024⟩ 16 false 17
        (⟨16, 2, [some 1, some 2] ++ List.replicate 14 none⟩ : Vector Nat)).capacity :=
  have h := (reserve_rounds_up ⟨4, 1024⟩ 16 false 17
    (⟨16, 2, [some 1, some 2] ++ List.replicate 14 none⟩ : Vector Nat) (by decide)
    (by decide) (by decide) ⟨by decide, by decide⟩ (by decide)).2.2 (by decide) 32
    (by decide) (by decide) (by decide)
  ⟨h.1, h.2.1, h.2.2.1⟩

/-- Size and capacity after `_erase`, whatever the block holds. -/
theorem eraseIdx_size_capacity {α : Type} (tick : Nat) (pod : Bool) (idx : Nat) (v : Vector α) :
    (eraseIdx tick pod idx v).size = usize_sub v.size 1 ∧
      (eraseIdx tick pod idx v).capacity
        = (if usize_sub v.capacity (usize_sub v.size 1) > tick then usize_sub v.capacity tick
           else v.capacity) := by
  cases pod
  · simp only [eraseIdx, erase_nonpod, shrink, deallocate, Bool.false_eq_true, ↓reduceIte]
    split <;> simp [size_allocateTo, capacity_allocateTo]
  · simp only [eraseIdx, erase_pod, shrink, deallocate, ↓reduceIte]
    split <;> split <;> simp_all [size_allocateTo, capacity_allocateTo]

/-- Size and capacity after `push_back`, whatever the block holds. -/
theorem push_back_size_capacity {α : Type} (tick : Nat) (pod : Bool) (x : α) (v : Vector α) :
    (push_back tick pod x v).size = usize_add v.size 1 ∧
      (push_back tick pod x v).capacity
        = (if v.capacity = v.size then usize_add v.capacity tick else v.capacity) := by
  simp only [push_back, allocate]
  split <;> simp [size_allocateTo, capacity_allocateTo]

/-- Size and capacity after `reserve`, whatever the block holds. -/
theorem reserve_size_capacity {α : Type} (tick : Nat) (pod : Bool) (n : Nat) (v : Vector α)
    (ht : 0 < tick) (hn : roundUp tick n < SIZE_MOD) :
    (reserve tick pod n v).size = v.size ∧
      (reserve tick pod n v).capacity
        = (if n < v.capacity then v.capacity else roundUp tick n) := by
  have hsz := reserve_size_eq tick n ht hn
  simp only [reserve]
  split
  · exact ⟨rfl, rfl⟩
  · simp only [hsz]
    exact ⟨size_allocateTo _ _ _, capacity_allocateTo _ _ _⟩

/-- Invariant of the capacity: `_size <= _capacity`, the capacity is a `size_t` and a
multiple of the tick. -/
theorem capacity_invariant_step {α : Type} (tick : Nat) (pod : Bool) (v : Vector α) (op : Op α)
    (ht : 0 < tick) (hok : Op.allowed tick v op = true)
    (hI : v.size ≤ v.capacity ∧ v.capacity < SIZE_MOD ∧ tick ∣ v.capacity) :
    (apply tick pod v op).size ≤ (apply tick pod v op).capacity ∧
      (apply tick pod v op).capacity < SIZE_MOD ∧ tick ∣ (apply tick pod v op).capacity := by
  obtain ⟨h1, h2, h3⟩ := hI
  have hpush : ∀ x, (v.size < v.capacity ∨ v.capacity + tick < SIZE_MOD) →
      (push_back tick pod x v).size ≤ (push_back tick pod x v).capacity ∧
      (push_back tick pod x v).capacity < SIZE_MOD ∧
      tick ∣ (push_back tick pod x v).capacity := by
    intro x hx
    obtain ⟨e1, e2⟩ := push_back_size_capacity tick pod x v
    rw [e1, e2]
    by_cases hc : v.capacity = v.size
    · have hx1 : v.capacity + tick < SIZE_MOD := by omega
      rw [if_pos hc, usize_add_eq _ _ hx1, usize_add_eq _ _ (by omega)]
      exact ⟨by omega, hx1, Nat.dvd_add h3 (Nat.dvd_refl _)⟩
    · rw [if_neg hc, usize_add_eq _ _ (by omega)]
      exact ⟨by omega, h2, h3⟩
  have herase : ∀ idx, 0 < v.size →
      (eraseIdx tick pod idx v).size ≤ (eraseIdx tick pod idx v).capacity ∧
      (eraseIdx tick pod idx v).capacity < SIZE_MOD ∧
      tick ∣ (eraseIdx tick pod idx v).capacity := by
    intro idx hpos
    obtain ⟨e1, e2⟩ := eraseIdx_size_capacity tick pod idx v
    rw [e1, e2, usize_sub_eq _ _ (by omega) (by omega),
      usize_sub_eq _ _ (by omega) h2]
    split
    · rename_i hgt
      rw [usize_sub_eq _ _ (by omega) h2]
      exact ⟨by omega, by omega, (Nat.dvd_sub' h3 (Nat.dvd_refl _))⟩
    · exact ⟨by omega, h2, h3⟩
  have hreserve : ∀ n, roundUp tick n < SIZE_MOD →
      v.size ≤ (reserve tick pod n v).capacity ∧ n ≤ (reserve tick pod n v).capacity ∧
      (reserve tick pod n v).size = v.size ∧
      (reserve tick pod n v).capacity < SIZE_MOD ∧
      tick ∣ (reserve tick pod n v).capacity := by
    intro n hn
    obtain ⟨e1, e2⟩ := reserve_size_capacity tick pod n v ht hn
    have hr := roundUp_spec tick n ht
    rw [e1, e2]
    split
    · exact ⟨h1, by omega, rfl, h2, h3⟩
    · exact ⟨by omega, hr.2.1, rfl, hn, hr.1⟩
  cases op with
  | push_back x =>
    simp only [Op.allowed, decide_eq_true_eq] at hok
    exact hpush x hok
  | emplace_back x =>
    simp only [Op.allowed, decide_eq_true_eq] at hok
    exact hpush x hok
  | pop_back =>
    simp only [Op.allowed, decide_eq_true_eq] at hok
    exact herase _ hok
  | erase it =>
    simp only [Op.allowed, decide_eq_true_eq] at hok
    exact herase it (by omega)
  | reserve n =>
    simp only [Op.allowed, decide_eq_true_eq] at hok
    obtain ⟨a1, _, a3, a4, a5⟩ := hreserve n hok
    simp only [apply]
    exact ⟨by rw [a3]; exact a1, a4, a5⟩
  | resize n =>
    simp only [Op.allowed, decide_eq_true_eq] at hok
    obtain ⟨_, a2, _, a4, a5⟩ := hreserve n hok
    simp only [apply, resize]
    exact ⟨a2, a4, a5⟩
  | clear =>
    simp only [apply, clear, clearElements]
    cases pod <;> exact ⟨Nat.zero_le _, h2, h3⟩

/-- The invariant of the capacity along a sequence of allowed calls. -/
theorem capacity_invariant_run {α : Type} (tick : Nat) (pod : Bool) (ht : 0 < tick) (ops : List (Op α)) :
    ∀ v : Vector α, allAllowed tick pod v ops = true →
      (v.size ≤ v.capacity ∧ v.capacity < SIZE_MOD ∧ tick ∣ v.capacity) →
      (applyAll tick pod v ops).size ≤ (applyAll tick pod v ops).capacity ∧
        (applyAll tick pod v ops).capacity < SIZE_MOD ∧
        tick ∣ (applyAll tick pod v ops).capacity := by
  induction ops with
  | nil => intro v _ hI; exact hI
  | cons op ops ih =>
    intro v hok hI
    simp only [allAllowed, Bool.and_eq_true] at hok
    exact ih _ hok.2 (capacity_invariant_step tick pod v op ht hok.1 hI)

/-- Claim C14 as stated fails: from a default-constructed vector with `CapacityTick` 16,
`push_back(7)` followed by `reserve(SIZE_MAX)` leaves `_size = 1` and `_capacity = 0`, the
rounded capacity `2 ^ 64` having wrapped around to 0. -/
theorem capacity_invariant_broken_by_wrap :
    applyAll 16 true (new : Vector Nat) [Op.push_back 7, Op.reserve 18446744073709551615]
        = ⟨0, 1, []⟩ ∧
      ¬ ((applyAll 16 true (new : Vector Nat)
            [Op.push_back 7, Op.reserve 18446744073709551615]).size
          ≤ (applyAll 16 true (new : Vector Nat)
            [Op.push_back 7, Op.reserve 18446744073709551615]).capacity) := by
  decide

/-- Claim C14, amended (capacity grows in fixed increments). Starting from a
default-constructed vector (`CapacityTick > 0`), after any finite sequence of `push_back`,
`emplace_back`, `pop_back` (non-empty vector), `erase` (valid index), `reserve`, `resize` and
`clear` in which no requested capacity exceeds `SIZE_MAX`, the state satisfies
`size <= capacity` and the capacity is a multiple of `CapacityTick`. -/
theorem capacity_invariant {α : Type} (tick : Nat) (pod : Bool) (ops : List (Op α)) (ht : 0 < tick)
    (hok : allAllowed tick pod (new : Vector α) ops = true) :
    (applyAll tick pod (new : Vector α) ops).size
        ≤ (applyAll tick pod (new : Vector α) ops).capacity ∧
      tick ∣ (applyAll tick pod (new : Vector α) ops).capacity := by
  have h := capacity_invariant_run tick pod ht ops new hok
    ⟨Nat.le_refl _, by simp [new, SIZE_MOD], Nat.dvd_zero _⟩
  exact ⟨h.1, h.2.2⟩

/-- Instance of `capacity_invariant`: a sequence that uses every call once. -/
theorem capacity_invariant_witness :
    (applyAll 16 false (new : Vector Nat)
        [Op.push_back 1, Op.emplace_back 2, Op.reserve 40, Op.resize 3, Op.pop_back,
          Op.erase 0, Op.clear, Op.push_back 9]).size
      ≤ (applyAll 16 false (new : Vector Nat)
        [Op.push_back 1, Op.emplace_back 2, Op.reserve 40, Op.resize 3, Op.pop_back,
          Op.erase 0, Op.clear, Op.push_back 9]).capacity ∧
    16 ∣ (applyAll 16 false (new : Vector Nat)
        [Op.push_back 1, Op.emplace_back 2, Op.reserve 40, Op.resize 3, Op.pop_back,
          Op.erase 0, Op.clear, Op.push_back 9]).capacity :=
  capacity_invariant 16 false _ (by decide) (by decide)

/-- Claim C19 (push_back / pop_back round trip), evaluated on the code. A vector with
`CapacityTick` 1 holds the single element 5 and is full. `push_back(v[0])` passes a
reference to slot 0; the vector being full, `_allocate()` runs first and the old block,
slot 0 included, is moved from and freed before `T(element)` reads through the reference:
the vector has two elements, but `back()` is not the value 5 that the argument had at the
call. The same call with an object outside the vector gives `back() == 5`. -/
theorem push_back_of_own_element :
    push_back_ref ⟨8, 1024⟩ 1 false (Ref.value 5) (new : Vector Nat) = ⟨1, 1, [some 5]⟩ ∧
      get (⟨1, 1, [some 5]⟩ : Vector Nat) 0 = some 5 ∧
      (push_back_ref ⟨8, 1024⟩ 1 false (Ref.slot 0) (⟨1, 1, [some 5]⟩ : Vector Nat)).size
        = 2 ∧
      back (push_back_ref ⟨8, 1024⟩ 1 false (Ref.slot 0) (⟨1, 1, [some 5]⟩ : Vector Nat))
        = none ∧
      back (push_back_ref ⟨8, 1024⟩ 1 false (Ref.value 5) (⟨1, 1, [some 5]⟩ : Vector Nat))
        = some 5 := by
  decide

end Vector

end koukan
